import Mathlib

/-!
The bulk-launch task scheduler `TaskSystem` of batchrunner-cpp.

A shallow embedding of `src/TaskSystem.h` / `src/TaskSystem.cpp`.

Conventions of the embedding

* `int` and `TaskID` are `Int`.  Signed overflow is undefined behaviour in C++,
  so the embedding describes executions in which every counter stays inside
  `[-2^31, 2^31 - 1]`; where a statement depends on that, the bound is a
  hypothesis.
* `IRunnable*` is an opaque handle, a `Nat`; `0` is `nullptr`.
* `std::queue<ReadyTaskData>` is a `List` (front = head, `push` appends).
* `std::map<K, V>` accessed only through `operator[]` is a total function that
  returns the value-initialised `V` on keys never written (`operator[]`
  default-inserts, and nothing in the code observes key presence of
  `tasks_depending_on` or `is_task_done`).  `waiting_list` also uses `erase`, and
  key presence is what "the waiting set" means, so it is a function into
  `Option`: `none` is an absent key.
* Every block executed under `mutex` is one atomic step.  The scheduler is the
  interleaving of three kinds of steps: `run`, the pop block of `workerThread`,
  and the `markTaskFinished` block of `workerThread`.
-/

namespace BatchRunner

/-! ## Data model (`TaskSystem.h`) -/

abbrev TaskID := Int

/-- One queued work item, `struct ReadyTaskData`. -/
structure ReadyTaskData where
  id : TaskID
  runnable : Nat
  index : Int
  num_total_tasks : Int
deriving DecidableEq, Repr

/-- One waiting batch, `struct WaitingTaskBatchData`. -/
structure WaitingTaskBatchData where
  id : TaskID
  num_deps : Int
  runnable : Nat
  num_total_tasks : Int
deriving DecidableEq, Repr

/-- The value-initialised `WaitingTaskBatchData` that `waiting_list[t]` inserts
for a key that is absent. -/
def WaitingTaskBatchData.zero : WaitingTaskBatchData :=
  { id := 0, num_deps := 0, runnable := 0, num_total_tasks := 0 }

/-- The shared fields of `class TaskSystem` that the scheduler logic reads and
writes (the `threads` vector is modelled separately, see `constructThreads`). -/
structure TaskSystem where
  num_threads : Int
  tasks_depending_on : TaskID → List TaskID
  ready_queue : List ReadyTaskData
  waiting_list : TaskID → Option WaitingTaskBatchData
  is_task_done : TaskID → Bool
  active_tasks : Int
  shutdown : Bool
  last_task_id : Int

/-- The member initialiser list of `TaskSystem::TaskSystem`; containers start
empty. -/
def TaskSystem.init (num_threads : Int) : TaskSystem :=
  { num_threads := num_threads
    tasks_depending_on := fun _ => []
    ready_queue := []
    waiting_list := fun _ => none
    is_task_done := fun _ => false
    active_tasks := 0
    shutdown := false
    last_task_id := 0 }

/-! ## Operations (`TaskSystem.cpp`) -/

/-- The loop `for (int i = 0; i < num_total_tasks; i++) ready_queue.push({id,
runnable, i, num_total_tasks});` used by both `run` and `markTaskFinished`. -/
def pushBatch (q : List ReadyTaskData) (id : TaskID) (runnable : Nat)
    (num_total_tasks : Int) : List ReadyTaskData :=
  (List.range num_total_tasks.toNat).foldl
    (fun acc (i : Nat) =>
      acc ++ [({ id := id, runnable := runnable, index := (i : Int),
                 num_total_tasks := num_total_tasks } : ReadyTaskData)]) q

/-- Body of the loop over `tasks_depending_on[finished_task.id]` in
`markTaskFinished`, for one dependent `t`. -/
def notifyDependent (s : TaskSystem) (t : TaskID) : TaskSystem :=
  let w := (s.waiting_list t).getD WaitingTaskBatchData.zero
  let w1 := { w with num_deps := w.num_deps - 1 }
  if w1.num_deps = 0 then
    { s with
      waiting_list := Function.update s.waiting_list t none
      ready_queue := pushBatch s.ready_queue w1.id w1.runnable w1.num_total_tasks }
  else
    { s with waiting_list := Function.update s.waiting_list t (some w1) }

/-- The method `TaskSystem::markTaskFinished` (the condition-variable
notifications carry no state). -/
def TaskSystem.markTaskFinished (s : TaskSystem) (finished_task : ReadyTaskData) :
    TaskSystem :=
  let s1 := (s.tasks_depending_on finished_task.id).foldl notifyDependent s
  { s1 with
    is_task_done := Function.update s1.is_task_done finished_task.id true
    active_tasks := s1.active_tasks - 1 }

/-- Body of the loop over `deps` in `run`: the accumulator is
`(tasks_depending_on, num_deps)`. -/
def recordDep (this_task_id : TaskID) (is_task_done : TaskID → Bool)
    (acc : (TaskID → List TaskID) × Int) (t : TaskID) : (TaskID → List TaskID) × Int :=
  if !(is_task_done t) then
    (Function.update acc.1 t (acc.1 t ++ [this_task_id]), acc.2 + 1)
  else acc

/-- The loop over `deps` in `run`, started with `num_deps = 0`. -/
def scanDeps (s : TaskSystem) (deps : List TaskID) : (TaskID → List TaskID) × Int :=
  deps.foldl (recordDep (s.last_task_id + 1) s.is_task_done) (s.tasks_depending_on, 0)

/-- The method `TaskSystem::run`: the new state and the returned id. -/
def TaskSystem.run (s : TaskSystem) (runnable : Nat) (num_total_tasks : Int)
    (deps : List TaskID) : TaskSystem × TaskID :=
  let this_task_id := s.last_task_id + 1
  let acc := scanDeps s deps
  let s1 := { s with last_task_id := this_task_id, tasks_depending_on := acc.1 }
  if acc.2 = 0 then
    ({ s1 with ready_queue := pushBatch s1.ready_queue this_task_id runnable num_total_tasks },
      this_task_id)
  else
    ({ s1 with
       waiting_list := Function.update s1.waiting_list this_task_id
         (some { id := this_task_id, num_deps := acc.2, runnable := runnable,
                 num_total_tasks := num_total_tasks }) },
      this_task_id)

/-- The first locked block of `workerThread`: pop the front item if there is
one and count it as active. -/
def TaskSystem.popFront (s : TaskSystem) : Option (ReadyTaskData × TaskSystem) :=
  match s.ready_queue with
  | [] => none
  | next_task :: rest =>
      some (next_task, { s with ready_queue := rest, active_tasks := s.active_tasks + 1 })

/-- The predicate `sync` waits for: `active_tasks == 0 && ready_queue.empty()`. -/
def TaskSystem.syncCondition (s : TaskSystem) : Bool :=
  decide (s.active_tasks = 0) && s.ready_queue.isEmpty

/-! ## The scheduler as a labelled transition system

`Sched` pairs the shared state with the workers' local `next_task` variables
(`in_flight`) and with history variables that the code never reads: they only
record what the steps did. -/

/-- What one call of `run` was given and what it returned. -/
structure Submission where
  id : TaskID
  runnable : Nat
  num_total_tasks : Int
  deps : List TaskID
deriving DecidableEq, Repr

/-- The ids that the propagation loop of `markTaskFinished` promotes (takes the
`num_deps == 0` branch for), in order, when run from `s` over `ts`. -/
def promotions (s : TaskSystem) : List TaskID → List TaskID
  | [] => []
  | t :: ts =>
      (if ((s.waiting_list t).getD WaitingTaskBatchData.zero).num_deps - 1 = 0 then [t] else [])
        ++ promotions (notifyDependent s t) ts

/-- The scheduler between two atomic steps.  `sys` is the shared state and
`in_flight` the items held in the workers' `next_task` (popped, and
`markTaskFinished` not yet run).  The other fields are history: the calls of
`run` with the ids they returned, every item ever pushed onto the ready queue,
the batches whose items were enqueued (by `run` directly or by promotion), the
batches promoted out of the waiting list, the items popped and the items for
which `markTaskFinished` has run, each in chronological order. -/
structure Sched where
  sys : TaskSystem
  in_flight : List ReadyTaskData
  submitted : List Submission
  pushed : List ReadyTaskData
  readied : List TaskID
  promoted : List TaskID
  popped : List ReadyTaskData
  finished : List ReadyTaskData

def Sched.init (num_threads : Int) : Sched :=
  { sys := TaskSystem.init num_threads
    in_flight := []
    submitted := []
    pushed := []
    readied := []
    promoted := []
    popped := []
    finished := [] }

/-- The atomic steps: a call of `run`, a worker popping the front item, and a
worker calling `markTaskFinished` for the item it holds. -/
inductive Label where
  | run (runnable : Nat) (num_total_tasks : Int) (deps : List TaskID)
  | pop
  | finish (item : ReadyTaskData)
deriving DecidableEq, Repr

/-- The step `run`: always enabled. -/
def Sched.runStep (s : Sched) (runnable : Nat) (num_total_tasks : Int)
    (deps : List TaskID) : Sched :=
  let res := s.sys.run runnable num_total_tasks deps
  { s with
    sys := res.1
    submitted := s.submitted ++ [{ id := res.2, runnable := runnable,
                                   num_total_tasks := num_total_tasks, deps := deps }]
    pushed := s.pushed ++ res.1.ready_queue.drop s.sys.ready_queue.length
    readied := s.readied ++ (if (scanDeps s.sys deps).2 = 0 then [res.2] else []) }

/-- The step `pop`: enabled when the ready queue is not empty. -/
def Sched.popStep (s : Sched) : Option Sched :=
  match s.sys.popFront with
  | none => none
  | some (next_task, sys1) =>
      some { s with
             sys := sys1
             in_flight := s.in_flight ++ [next_task]
             popped := s.popped ++ [next_task] }

/-- The step `finish`: enabled for an item that a worker holds. -/
def Sched.finishStep (s : Sched) (item : ReadyTaskData) : Option Sched :=
  if item ∈ s.in_flight then
    let sys1 := s.sys.markTaskFinished item
    some { s with
           sys := sys1
           in_flight := s.in_flight.erase item
           pushed := s.pushed ++ sys1.ready_queue.drop s.sys.ready_queue.length
           readied := s.readied ++ promotions s.sys (s.sys.tasks_depending_on item.id)
           promoted := s.promoted ++ promotions s.sys (s.sys.tasks_depending_on item.id)
           finished := s.finished ++ [item] }
  else none

def Sched.step (s : Sched) : Label → Option Sched
  | .run r n deps => some (s.runStep r n deps)
  | .pop => s.popStep
  | .finish item => s.finishStep item

/-- Run a sequence of steps; `none` when some step is not enabled. -/
def exec (s : Sched) : List Label → Option Sched
  | [] => some s
  | l :: ls => (s.step l).bind (fun s1 => exec s1 ls)

/-- States reachable from a freshly constructed scheduler. -/
def Reachable (s : Sched) : Prop :=
  ∃ num_threads tr, exec (Sched.init num_threads) tr = some s

/-- Number of finished items of batch `b`. -/
def Sched.finishedCount (s : Sched) (b : TaskID) : Nat :=
  s.finished.countP (fun x => decide (x.id = b))

def Label.isRun : Label → Bool
  | .run _ _ _ => true
  | _ => false

/-- Number of `run` steps in a trace. -/
def runCount (tr : List Label) : Nat :=
  tr.countP Label.isRun

/-! ## The worker collection (`threads`)

Checked-indexing model of `std::vector<std::thread>`: `size()` is the length
of `elems`, `reserve` changes only the capacity, and `operator[]` outside
`[0, size())` is an error instead of undefined behaviour. -/

/-- A `std::thread` object: default-constructed (not joinable), running
`workerThread` (joinable), or joined. -/
inductive Thread where
  | empty
  | worker
  | joined
deriving DecidableEq, Repr

def Thread.joinable : Thread → Bool
  | .worker => true
  | _ => false

structure ThreadVec where
  elems : List Thread
  capacity : Nat
deriving DecidableEq, Repr

/-- An indexed access at `index` into a vector of `size` elements,
`size ≤ index`. -/
structure OutOfRange where
  index : Nat
  size : Nat
deriving DecidableEq, Repr

/-- A default-constructed `vector<thread>`. -/
def ThreadVec.new : ThreadVec := { elems := [], capacity := 0 }

def ThreadVec.size (v : ThreadVec) : Nat := v.elems.length

/-- The call `threads.reserve(n)`: capacity grows, size and elements stay. -/
def ThreadVec.reserve (v : ThreadVec) (n : Nat) : ThreadVec :=
  { v with capacity := max v.capacity n }

/-- Checked read `threads[i]`. -/
def ThreadVec.read (v : ThreadVec) (i : Nat) : Except OutOfRange Thread :=
  match v.elems.get? i with
  | some t => .ok t
  | none => .error { index := i, size := v.size }

/-- Checked write `threads[i] = t`. -/
def ThreadVec.write (v : ThreadVec) (i : Nat) (t : Thread) : Except OutOfRange ThreadVec :=
  if i < v.size then .ok { v with elems := v.elems.set i t }
  else .error { index := i, size := v.size }

/-- The body of `TaskSystem::TaskSystem` on `threads`: `reserve`, then the loop
`threads[i] = thread(&TaskSystem::workerThread, this)`.  For `num_threads ≤ 0`
the loop does not run (a negative argument of `reserve` is outside the
model). -/
def constructThreads (num_threads : Int) : Except OutOfRange ThreadVec :=
  (List.range num_threads.toNat).foldlM (fun v i => v.write i Thread.worker)
    (ThreadVec.new.reserve num_threads.toNat)

/-- The loop of `TaskSystem::~TaskSystem` on `threads`:
`if (threads[i].joinable()) threads[i].join();`. -/
def destructThreads (num_threads : Int) (threads : ThreadVec) :
    Except OutOfRange ThreadVec :=
  (List.range num_threads.toNat).foldlM
    (fun v i => do
      let t ← v.read i
      if t.joinable then v.write i Thread.joined else pure v)
    threads

/-! ## Closed forms used to state results -/

/-- The items `(id, runnable, 0, n), ..., (id, runnable, n - 1, n)` in index
order. -/
def batchItems (id : TaskID) (runnable : Nat) (n : Int) : List ReadyTaskData :=
  (List.range n.toNat).map
    (fun (i : Nat) =>
      ({ id := id, runnable := runnable, index := (i : Int), num_total_tasks := n } :
        ReadyTaskData))

/-- The pair `(batch id, item index)` that identifies a work item. -/
def ReadyTaskData.key (x : ReadyTaskData) : TaskID × Int := (x.id, x.index)

/-- The largest value of `int`. -/
def INT_MAX : Int := 2 ^ 31 - 1

/-! ## Invariant of the reachable states -/

/-- One iteration of the propagation loop of `markTaskFinished` together with
the history it adds. -/
def Sched.notify (s : Sched) (t : TaskID) : Sched :=
  { s with
    sys := notifyDependent s.sys t
    pushed := s.pushed ++ (notifyDependent s.sys t).ready_queue.drop s.sys.ready_queue.length
    readied := s.readied ++ promotions s.sys [t]
    promoted := s.promoted ++ promotions s.sys [t] }

/-- The facts that hold in every reachable state and that the results below
rest on. -/
structure Inv (s : Sched) : Prop where
  last_eq : s.sys.last_task_id = (s.submitted.length : Int)
  ids : s.submitted.map (fun b => b.id)
    = (List.range s.submitted.length).map (fun (i : Nat) => (i : Int) + 1)
  queue : s.pushed = s.popped ++ s.sys.ready_queue
  flight : ∀ x ∈ s.in_flight, x ∈ s.popped
  pushed_sub : ∀ x ∈ s.pushed, x.id ∈ s.readied ∧ 0 ≤ x.index ∧ x.index < x.num_total_tasks ∧
    ∃ b ∈ s.submitted, b.id = x.id ∧ b.runnable = x.runnable ∧
      b.num_total_tasks = x.num_total_tasks
  pushed_nodup : (s.pushed.map ReadyTaskData.key).Nodup
  readied_nodup : s.readied.Nodup
  readied_sub : ∀ t ∈ s.readied, ∃ b ∈ s.submitted, b.id = t
  promoted_sub : s.promoted.Sublist s.readied
  waiting : ∀ t w, s.sys.waiting_list t = some w → w.num_deps ≠ 0 ∧
    (0 < w.num_deps → w.id = t ∧ t ∉ s.readied ∧
      ∃ b ∈ s.submitted, b.id = t ∧ b.runnable = w.runnable ∧
        b.num_total_tasks = w.num_total_tasks)
  complete : ∀ b ∈ s.submitted, b.id ∈ s.readied → ∀ i : Nat, (i : Int) < b.num_total_tasks →
    ({ id := b.id, runnable := b.runnable, index := (i : Int),
       num_total_tasks := b.num_total_tasks } : ReadyTaskData) ∈ s.pushed
  done_sub : ∀ t, s.sys.is_task_done t = true → ∃ b ∈ s.submitted, b.id = t

/-! ## One iteration of `workerThread` -/

/-- What the body of `while (true)` in `workerThread` goes on to do after its
first locked block: run the popped task (and then `markTaskFinished`), `break`,
or block in `task_available_cv.wait`. -/
inductive WorkerAction where
  | execute (next_task : ReadyTaskData)
  | exit
  | wait
deriving DecidableEq, Repr

/-- One pass through the body of the loop in `TaskSystem::workerThread`, up to
the point where the three branches part.  `shutdown_loaded` is the value that
`shutdown.load()` returns; it is read after the lock has been released, so it
need not be the `shutdown` field of the state the queue was read in. -/
def TaskSystem.workerThread (s : TaskSystem) (shutdown_loaded : Bool) :
    WorkerAction × TaskSystem :=
  match s.popFront with
  | some (next_task, s1) => (.execute next_task, s1)
  | none => if shutdown_loaded then (.exit, s) else (.wait, s)

/-- The predicate of `task_available_cv.wait`:
`!ready_queue.empty() or shutdown.load()`. -/
def TaskSystem.taskAvailable (s : TaskSystem) : Bool :=
  !s.ready_queue.isEmpty || s.shutdown

/-! ## Order of the ready queue -/

/-- The items of the batch that `run` issued id `t` for, in index order
(nothing when `t` was never issued). -/
def itemsOf (subs : List Submission) (t : TaskID) : List ReadyTaskData :=
  match subs.find? (fun b => decide (b.id = t)) with
  | some b => batchItems b.id b.runnable b.num_total_tasks
  | none => []

/-- The items of the batches `ts`, batch after batch. -/
def itemsOfAll (subs : List Submission) : List TaskID → List ReadyTaskData
  | [] => []
  | t :: ts => itemsOf subs t ++ itemsOfAll subs ts

/-- Item `x` comes before item `y` in ready order: the batch of `x` became ready
earlier than the batch of `y`, or both belong to one batch and `x` has the
smaller index. -/
def Sched.precedes (s : Sched) (x y : ReadyTaskData) : Prop :=
  s.readied.indexOf x.id < s.readied.indexOf y.id ∨ (x.id = y.id ∧ x.index < y.index)

/-- Further facts that hold in every reachable state. -/
structure Inv2 (s : Sched) : Prop where
  active : s.sys.active_tasks = (s.in_flight.length : Int)
  lens : s.popped.length = s.finished.length + s.in_flight.length
  perm : s.popped.Perm (s.finished ++ s.in_flight)
  flight_sub : s.in_flight.Sublist s.popped
  done_readied : ∀ t, s.sys.is_task_done t = true → t ∈ s.readied
  done_finished : ∀ t, s.sys.is_task_done t = true ↔ ∃ x ∈ s.finished, x.id = t
  fifo : s.pushed = itemsOfAll s.submitted s.readied

/-! ## Batches of at most one item -/

/-- Number of entries of `deps`, counted with multiplicity, that are not marked
done. -/
def pendingCount (is_task_done : TaskID → Bool) (deps : List TaskID) : Nat :=
  (deps.filter (fun d => !(is_task_done d))).length

/-- Facts that hold in the reachable states in which no submitted batch has more
than one item. -/
structure Single (s : Sched) : Prop where
  counter : ∀ t w, s.sys.waiting_list t = some w → 0 < w.num_deps ∧
    ∀ b ∈ s.submitted, b.id = t →
      w.num_deps = (pendingCount s.sys.is_task_done b.deps : Int)
  edges : ∀ a, s.sys.is_task_done a = false → ∀ d,
    (s.sys.waiting_list d = none → (s.sys.tasks_depending_on a).count d = 0) ∧
    (∀ b ∈ s.submitted, b.id = d → s.sys.waiting_list d ≠ none →
      (s.sys.tasks_depending_on a).count d = b.deps.count a)
  pending : ∀ x, x ∈ s.in_flight ∨ x ∈ s.sys.ready_queue → s.sys.is_task_done x.id = false
  ordered : ∀ b ∈ s.submitted, b.id ∈ s.readied → ∀ a ∈ b.deps, s.sys.is_task_done a = true

/-- The facts of `Single` inside the propagation loop of `markTaskFinished` for
an item of batch `a0`, where `rest` is the part of the dependents list of `a0`
that the loop has still to visit. -/
structure SingleLoop (s : Sched) (a0 : TaskID) (rest : List TaskID) : Prop where
  not_done : s.sys.is_task_done a0 = false
  counter : ∀ t w, s.sys.waiting_list t = some w → 0 < w.num_deps ∧
    ∀ b ∈ s.submitted, b.id = t →
      w.num_deps + (b.deps.count a0 : Int)
        = (pendingCount s.sys.is_task_done b.deps : Int) + (rest.count t : Int)
  absent : ∀ t, s.sys.waiting_list t = none → rest.count t = 0
  edges : ∀ a, a ≠ a0 → s.sys.is_task_done a = false → ∀ d,
    (s.sys.waiting_list d = none → (s.sys.tasks_depending_on a).count d = 0) ∧
    (∀ b ∈ s.submitted, b.id = d → s.sys.waiting_list d ≠ none →
      (s.sys.tasks_depending_on a).count d = b.deps.count a)
  pending : ∀ x, x ∈ s.in_flight ∨ x ∈ s.sys.ready_queue → s.sys.is_task_done x.id = false
  ordered : ∀ b ∈ s.submitted, b.id ∈ s.readied → ∀ a ∈ b.deps,
    a = a0 ∨ s.sys.is_task_done a = true

/-! ## Concrete executions -/

/-- Batch 1 has two items, batch 2 depends on batch 1; one item of batch 1
finishes, then the queue is drained by two pops. -/
def multiItemTrace : List Label :=
  [.run 7 2 [], .run 8 1 [1], .pop, .finish ⟨1, 7, 0, 2⟩, .pop, .pop]

/-- A two-item batch of which one item has finished. -/
def firstItemTrace : List Label :=
  [.run 7 2 [], .pop, .finish ⟨1, 7, 0, 2⟩]

/-- An empty batch followed by a batch that depends on it. -/
def zeroItemTrace : List Label :=
  [.run 7 0 [], .run 8 1 [1]]

/-- Batch 3 depends on the two-item batch 1 and on batch 2; both items of
batch 1 are popped, then the first of them finishes. -/
def diamondTraceA : List Label :=
  [.run 7 2 [], .run 8 1 [], .run 9 1 [1, 2], .pop, .pop, .finish ⟨1, 7, 0, 2⟩]

/-- The trace `diamondTraceA` followed by the finish of the second item of
batch 1. -/
def diamondTraceB : List Label :=
  diamondTraceA ++ [.finish ⟨1, 7, 1, 2⟩]

/-- The shared state after one single-item batch has run to completion. -/
def oneDoneSys : TaskSystem :=
  ((exec (Sched.init 4) [.run 7 1 [], .pop, .finish ⟨1, 7, 0, 1⟩]).map Sched.sys).getD
    (TaskSystem.init 4)

/-- A trace with three submissions interleaved with worker steps. -/
def mixedTrace : List Label :=
  [.run 7 2 [], .pop, .run 8 1 [1], .finish ⟨1, 7, 0, 2⟩, .pop, .run 9 3 [2, 1]]

/-- The state that `mixedTrace` leads to. -/
def mixedState : Sched :=
  (exec (Sched.init 4) mixedTrace).getD (Sched.init 4)

/-- Every item count is at least 1: batch 2 depends on the two-item batch 1,
and every item of both batches is popped and finished. -/
def allDoneTrace : List Label :=
  [.run 7 2 [], .run 8 1 [1], .pop, .finish ⟨1, 7, 0, 2⟩, .pop, .finish ⟨1, 7, 1, 2⟩,
   .pop, .finish ⟨2, 8, 0, 1⟩]

/-- Batch 2 depends on the two-item batch 1; the first item of batch 1 has
finished and the second has been popped. -/
def lastItemTraceA : List Label :=
  [.run 7 2 [], .run 8 1 [1], .pop, .finish ⟨1, 7, 0, 2⟩, .pop]

/-- The trace `lastItemTraceA` followed by the finish of the last item of
batch 1. -/
def lastItemTraceB : List Label :=
  lastItemTraceA ++ [.finish ⟨1, 7, 1, 2⟩]

/-- Batch 3 (two items) is submitted with `deps = [1, 2, 2]`; both items of the
two-item batch 1 finish while the only item of batch 2 is held by a worker. -/
def reinsertTraceA : List Label :=
  [.run 7 2 [], .run 8 1 [], .run 9 2 [1, 2, 2], .pop, .pop, .pop,
   .finish ⟨1, 7, 0, 2⟩, .finish ⟨1, 7, 1, 2⟩]

/-- The trace `reinsertTraceA` followed by the finish of the only item of
batch 2. -/
def reinsertTraceB : List Label :=
  reinsertTraceA ++ [.finish ⟨2, 8, 0, 1⟩]

/-- Batch 1 is empty, batch 2 has two items, batch 3 is submitted with
`deps = [1, 2]`. -/
def zeroDepSubmitted : List Label :=
  [.run 7 0 [], .run 8 2 [], .run 9 1 [1, 2]]

/-- Batch 1 is empty, batch 2 has two items, batch 3 depends on both; the two
items of batch 2 are popped and finish. -/
def zeroDepTrace : List Label :=
  [.run 7 0 [], .run 8 2 [], .run 9 1 [1, 2], .pop, .pop,
   .finish ⟨2, 8, 0, 2⟩, .finish ⟨2, 8, 1, 2⟩]

/-- Three single-item batches, batch 2 depending on batch 1 and batch 3 on
both; batches 1 and 2 have run, the item of batch 3 has been popped. -/
def singleTrace : List Label :=
  [.run 7 1 [], .run 8 1 [1], .run 9 1 [1, 2], .pop, .finish ⟨1, 7, 0, 1⟩, .pop,
   .finish ⟨2, 8, 0, 1⟩, .pop]

/-- The state that `singleTrace` leads to. -/
def singleState : Sched :=
  (exec (Sched.init 4) singleTrace).getD (Sched.init 4)

/-- The state that `zeroItemTrace` leads to. -/
def zeroState : Sched :=
  (exec (Sched.init 4) zeroItemTrace).getD (Sched.init 4)

/-! ## Basic facts about the loops -/

theorem foldl_push_eq {α β : Type} (f : α → β) (l : List α) (q : List β) :
    l.foldl (fun acc i => acc ++ [f i]) q = q ++ l.map f := by
  induction l generalizing q with
  | nil => simp
  | cons a l ih => simp [ih]

theorem pushBatch_eq (q : List ReadyTaskData) (id : TaskID) (r : Nat) (n : Int) :
    pushBatch q id r n = q ++ batchItems id r n := by
  unfold pushBatch batchItems
  exact foldl_push_eq _ _ _

theorem foldl_recordDep_snd (id : TaskID) (done : TaskID → Bool) (deps : List TaskID)
    (tdo : TaskID → List TaskID) (k : Int) :
    (deps.foldl (recordDep id done) (tdo, k)).2
      = k + ((deps.filter (fun t => !(done t))).length : Int) := by
  induction deps generalizing tdo k with
  | nil => simp
  | cons d ds ih =>
    by_cases hd : done d = true
    · simp [recordDep, hd, ih]
    · have hd2 : done d = false := by simpa using hd
      simp [recordDep, hd2, ih]
      ring

theorem foldl_recordDep_fst (id : TaskID) (done : TaskID → Bool) (deps : List TaskID)
    (tdo : TaskID → List TaskID) (k : Int) (t : TaskID) :
    (deps.foldl (recordDep id done) (tdo, k)).1 t
      = tdo t ++ (if done t = true then [] else List.replicate (deps.count t) id) := by
  induction deps generalizing tdo k with
  | nil => simp
  | cons d ds ih =>
    by_cases hd : done d = true
    · by_cases htd : t = d
      · subst htd
        simp [recordDep, hd, ih]
      · have hdt : ¬ d = t := fun h => htd h.symm
        simp [recordDep, hd, ih, List.count_cons, hdt]
    · have hd2 : done d = false := by simpa using hd
      by_cases htd : t = d
      · subst htd
        simp [recordDep, hd2, ih, List.replicate_succ]
      · have hdt : ¬ d = t := fun h => htd h.symm
        simp [recordDep, hd2, ih, List.count_cons, hdt, Function.update_noteq htd]

theorem scanDeps_snd (s : TaskSystem) (deps : List TaskID) :
    (scanDeps s deps).2 = ((deps.filter (fun t => !(s.is_task_done t))).length : Int) := by
  unfold scanDeps
  rw [foldl_recordDep_snd]
  simp

theorem scanDeps_fst (s : TaskSystem) (deps : List TaskID) (t : TaskID) :
    (scanDeps s deps).1 t = s.tasks_depending_on t ++
      (if s.is_task_done t = true then [] else List.replicate (deps.count t) (s.last_task_id + 1)) := by
  unfold scanDeps
  exact foldl_recordDep_fst _ _ _ _ _ _

theorem scanDeps_snd_eq_zero_iff (s : TaskSystem) (deps : List TaskID) :
    (scanDeps s deps).2 = 0 ↔ ∀ t ∈ deps, s.is_task_done t = true := by
  rw [scanDeps_snd]
  constructor
  · intro h t ht
    have h0 : (deps.filter (fun t => !(s.is_task_done t))).length = 0 := by exact_mod_cast h
    have hnil := List.length_eq_zero.mp h0
    by_contra hne
    have hne2 : s.is_task_done t = false := by simpa using hne
    have hmem : t ∈ deps.filter (fun t => !(s.is_task_done t)) := by
      simp [List.mem_filter, ht, hne2]
    rw [hnil] at hmem
    simp at hmem
  · intro h
    have hnil : deps.filter (fun t => !(s.is_task_done t)) = [] := by
      rw [List.filter_eq_nil_iff]
      intro t ht
      simp [h t ht]
    simp [hnil]

theorem scanDeps_fst_of_done (s : TaskSystem) (deps : List TaskID)
    (h : ∀ t ∈ deps, s.is_task_done t = true) :
    (scanDeps s deps).1 = s.tasks_depending_on := by
  funext t
  rw [scanDeps_fst]
  by_cases hd : s.is_task_done t = true
  · simp [hd]
  · have hnot : t ∉ deps := fun ht => hd (h t ht)
    simp [hd, List.count_eq_zero_of_not_mem hnot]

theorem run_snd (s : TaskSystem) (r : Nat) (n : Int) (deps : List TaskID) :
    (s.run r n deps).2 = s.last_task_id + 1 := by
  by_cases h : (scanDeps s deps).2 = 0 <;> simp [TaskSystem.run, h]

theorem run_direct (s : TaskSystem) (r : Nat) (n : Int) (deps : List TaskID)
    (h : (scanDeps s deps).2 = 0) :
    s.run r n deps =
      ({ s with
         last_task_id := s.last_task_id + 1
         tasks_depending_on := (scanDeps s deps).1
         ready_queue := s.ready_queue ++ batchItems (s.last_task_id + 1) r n },
        s.last_task_id + 1) := by
  simp [TaskSystem.run, h, pushBatch_eq]

theorem run_waiting (s : TaskSystem) (r : Nat) (n : Int) (deps : List TaskID)
    (h : ¬ (scanDeps s deps).2 = 0) :
    s.run r n deps =
      ({ s with
         last_task_id := s.last_task_id + 1
         tasks_depending_on := (scanDeps s deps).1
         waiting_list := Function.update s.waiting_list (s.last_task_id + 1)
           (some { id := s.last_task_id + 1, num_deps := (scanDeps s deps).2, runnable := r,
                   num_total_tasks := n }) },
        s.last_task_id + 1) := by
  simp [TaskSystem.run, h]

/-! ## Preservation of the invariant -/

theorem mem_batchItems (x : ReadyTaskData) (id : TaskID) (r : Nat) (n : Int) :
    x ∈ batchItems id r n ↔ ∃ i : Nat, (i : Int) < n ∧
      x = { id := id, runnable := r, index := (i : Int), num_total_tasks := n } := by
  unfold batchItems
  rw [List.mem_map]
  constructor
  · rintro ⟨i, hi, rfl⟩
    rw [List.mem_range] at hi
    exact ⟨i, by omega, rfl⟩
  · rintro ⟨i, hi, rfl⟩
    exact ⟨i, List.mem_range.mpr (by omega), rfl⟩

theorem nodup_keys_batchItems (id : TaskID) (r : Nat) (n : Int) :
    ((batchItems id r n).map ReadyTaskData.key).Nodup := by
  unfold batchItems
  rw [List.map_map]
  refine List.Nodup.map ?_ (List.nodup_range _)
  intro i j hij
  simp only [Function.comp, ReadyTaskData.key, Prod.mk.injEq] at hij
  exact_mod_cast hij.2

theorem notifyDependent_promote (s : TaskSystem) (t : TaskID) (w : WaitingTaskBatchData)
    (hw : s.waiting_list t = some w) (h1 : w.num_deps = 1) :
    notifyDependent s t =
      { s with
        waiting_list := Function.update s.waiting_list t none
        ready_queue := s.ready_queue ++ batchItems w.id w.runnable w.num_total_tasks } := by
  simp [notifyDependent, hw, h1, pushBatch_eq]

theorem notifyDependent_decr (s : TaskSystem) (t : TaskID)
    (h : ¬ ((s.waiting_list t).getD WaitingTaskBatchData.zero).num_deps - 1 = 0) :
    notifyDependent s t =
      { s with
        waiting_list := Function.update s.waiting_list t
          (some { (s.waiting_list t).getD WaitingTaskBatchData.zero with
                  num_deps := ((s.waiting_list t).getD WaitingTaskBatchData.zero).num_deps - 1 }) } := by
  simp [notifyDependent, h]

theorem promote_cond (s : TaskSystem) (t : TaskID)
    (h : ((s.waiting_list t).getD WaitingTaskBatchData.zero).num_deps - 1 = 0) :
    ∃ w, s.waiting_list t = some w ∧ w.num_deps = 1 := by
  cases hw : s.waiting_list t with
  | none =>
    rw [hw] at h
    simp [WaitingTaskBatchData.zero] at h
  | some w =>
    rw [hw] at h
    simp only [Option.getD_some] at h
    exact ⟨w, rfl, by omega⟩

theorem notify_promote (s : Sched) (t : TaskID) (w : WaitingTaskBatchData)
    (hw : s.sys.waiting_list t = some w) (h1 : w.num_deps = 1) :
    s.notify t =
      { s with
        sys := { s.sys with
                 waiting_list := Function.update s.sys.waiting_list t none
                 ready_queue := s.sys.ready_queue ++
                   batchItems w.id w.runnable w.num_total_tasks }
        pushed := s.pushed ++ batchItems w.id w.runnable w.num_total_tasks
        readied := s.readied ++ [t]
        promoted := s.promoted ++ [t] } := by
  simp [Sched.notify, notifyDependent_promote s.sys t w hw h1, promotions, hw, h1]

theorem notify_decr (s : Sched) (t : TaskID)
    (h : ¬ ((s.sys.waiting_list t).getD WaitingTaskBatchData.zero).num_deps - 1 = 0) :
    s.notify t =
      { s with
        sys := { s.sys with
                 waiting_list := Function.update s.sys.waiting_list t
                   (some { (s.sys.waiting_list t).getD WaitingTaskBatchData.zero with
                           num_deps :=
                             ((s.sys.waiting_list t).getD WaitingTaskBatchData.zero).num_deps - 1 }) } } := by
  simp [Sched.notify, notifyDependent_decr s.sys t h, promotions, h]

theorem Inv.id_inj {s : Sched} (h : Inv s) {b c : Submission} (hb : b ∈ s.submitted)
    (hc : c ∈ s.submitted) (hbc : b.id = c.id) : b = c := by
  have hnd : (s.submitted.map (fun b => b.id)).Nodup := by
    rw [h.ids]
    refine List.Nodup.map ?_ (List.nodup_range _)
    intro i j hij
    have : (i : Int) + 1 = (j : Int) + 1 := hij
    omega
  exact List.inj_on_of_nodup_map hnd hb hc hbc

theorem Inv.id_bounds {s : Sched} (h : Inv s) {b : Submission} (hb : b ∈ s.submitted) :
    1 ≤ b.id ∧ b.id ≤ s.sys.last_task_id := by
  have hm : b.id ∈ s.submitted.map (fun b => b.id) := List.mem_map.mpr ⟨b, hb, rfl⟩
  rw [h.ids] at hm
  obtain ⟨i, hi, hid⟩ := List.mem_map.mp hm
  rw [List.mem_range] at hi
  have hid2 : (i : Int) + 1 = b.id := hid
  rw [h.last_eq]
  unfold TaskID at *
  constructor <;> omega

theorem inv_notify (s : Sched) (t : TaskID) (hinv : Inv s) : Inv (s.notify t) := by
  by_cases h : ((s.sys.waiting_list t).getD WaitingTaskBatchData.zero).num_deps - 1 = 0
  · obtain ⟨w, hw, h1⟩ := promote_cond s.sys t h
    rw [notify_promote s t w hw h1]
    obtain ⟨hid, hnr, b0, hb0, hb0id, hb0r, hb0n⟩ := (hinv.waiting t w hw).2 (by omega)
    rw [hid]
    exact
      { last_eq := hinv.last_eq
        ids := hinv.ids
        queue := by
          show s.pushed ++ _ = s.popped ++ (s.sys.ready_queue ++ _)
          rw [hinv.queue, List.append_assoc]
        flight := hinv.flight
        pushed_sub := by
          intro x hx
          rcases List.mem_append.mp hx with hx | hx
          · obtain ⟨a, b, c, d⟩ := hinv.pushed_sub x hx
            exact ⟨List.mem_append_left _ a, b, c, d⟩
          · obtain ⟨i, hi, rfl⟩ := (mem_batchItems _ _ _ _).mp hx
            exact ⟨List.mem_append_right _ (List.mem_singleton_self _),
              Int.ofNat_nonneg i, hi, b0, hb0, hb0id, hb0r, hb0n⟩
        pushed_nodup := by
          show ((s.pushed ++ batchItems t w.runnable w.num_total_tasks).map
            ReadyTaskData.key).Nodup
          rw [List.map_append, List.nodup_append]
          refine ⟨hinv.pushed_nodup, nodup_keys_batchItems _ _ _, ?_⟩
          intro k hk1 hk2
          obtain ⟨x, hx, rfl⟩ := List.mem_map.mp hk1
          obtain ⟨y, hy, hxy⟩ := List.mem_map.mp hk2
          obtain ⟨i, -, rfl⟩ := (mem_batchItems _ _ _ _).mp hy
          have hxt : x.id = t := by
            have := congrArg Prod.fst hxy
            exact this.symm
          exact hnr (hxt ▸ (hinv.pushed_sub x hx).1)
        readied_nodup := by
          show (s.readied ++ [t]).Nodup
          rw [List.nodup_append]
          refine ⟨hinv.readied_nodup, List.nodup_singleton t, ?_⟩
          intro a ha hb
          rw [List.mem_singleton] at hb
          exact hnr (hb ▸ ha)
        readied_sub := by
          intro a ha
          rcases List.mem_append.mp ha with ha | ha
          · exact hinv.readied_sub a ha
          · rw [List.mem_singleton] at ha
            exact ⟨b0, hb0, ha ▸ hb0id⟩
        promoted_sub := hinv.promoted_sub.append (List.Sublist.refl _)
        waiting := by
          intro a wa hwa
          have hwa2 : Function.update s.sys.waiting_list t none a = some wa := hwa
          by_cases hat : a = t
          · rw [hat, Function.update_same] at hwa2
            exact Option.noConfusion hwa2
          · rw [Function.update_noteq hat] at hwa2
            obtain ⟨h0, hp⟩ := hinv.waiting a wa hwa2
            refine ⟨h0, fun hpos => ?_⟩
            obtain ⟨c, d, e⟩ := hp hpos
            refine ⟨c, ?_, e⟩
            intro hm
            rcases List.mem_append.mp hm with hm | hm
            · exact d hm
            · exact hat (List.mem_singleton.mp hm)
        complete := by
          intro b hb hbr i hi
          rcases List.mem_append.mp hbr with hm | hm
          · exact List.mem_append_left _ (hinv.complete b hb hm i hi)
          · rw [List.mem_singleton] at hm
            have hbb : b = b0 := hinv.id_inj hb hb0 (hm.trans hb0id.symm)
            subst hbb
            refine List.mem_append_right _ ((mem_batchItems _ _ _ _).mpr ⟨i, ?_, ?_⟩)
            · rw [← hb0n]
              exact hi
            · rw [hb0id, hb0r, hb0n]
        done_sub := hinv.done_sub }
  · rw [notify_decr s t h]
    exact
      { last_eq := hinv.last_eq
        ids := hinv.ids
        queue := hinv.queue
        flight := hinv.flight
        pushed_sub := hinv.pushed_sub
        pushed_nodup := hinv.pushed_nodup
        readied_nodup := hinv.readied_nodup
        readied_sub := hinv.readied_sub
        promoted_sub := hinv.promoted_sub
        waiting := by
          intro a wa hwa
          have hwa2 : Function.update s.sys.waiting_list t
              (some { (s.sys.waiting_list t).getD WaitingTaskBatchData.zero with
                      num_deps :=
                        ((s.sys.waiting_list t).getD WaitingTaskBatchData.zero).num_deps - 1 })
              a = some wa := hwa
          by_cases hat : a = t
          · rw [hat, Function.update_same] at hwa2
            have hwa3 := Option.some.inj hwa2
            subst hwa3
            rw [hat]
            refine ⟨h, fun hpos => ?_⟩
            cases hwt : s.sys.waiting_list t with
            | none =>
              rw [hwt] at hpos
              simp [WaitingTaskBatchData.zero] at hpos
            | some w =>
              rw [hwt] at hpos
              simp only [Option.getD_some] at hpos
              obtain ⟨c, d, e⟩ := (hinv.waiting t w hwt).2 (by omega)
              exact ⟨c, d, e⟩
          · rw [Function.update_noteq hat] at hwa2
            exact hinv.waiting a wa hwa2
        complete := hinv.complete
        done_sub := hinv.done_sub }

theorem inv_foldl_notify (ts : List TaskID) (s : Sched) (hinv : Inv s) :
    Inv (ts.foldl Sched.notify s) := by
  induction ts generalizing s with
  | nil => exact hinv
  | cons t ts ih => exact ih _ (inv_notify s t hinv)

theorem notifyDependent_queue (s : TaskSystem) (t : TaskID) :
    ∃ items, (notifyDependent s t).ready_queue = s.ready_queue ++ items := by
  by_cases h : ((s.waiting_list t).getD WaitingTaskBatchData.zero).num_deps - 1 = 0
  · obtain ⟨w, hw, h1⟩ := promote_cond s t h
    rw [notifyDependent_promote s t w hw h1]
    exact ⟨_, rfl⟩
  · rw [notifyDependent_decr s t h]
    exact ⟨[], (List.append_nil _).symm⟩

theorem notifyDependent_fixed (s : TaskSystem) (t : TaskID) :
    (notifyDependent s t).last_task_id = s.last_task_id ∧
    (notifyDependent s t).is_task_done = s.is_task_done ∧
    (notifyDependent s t).tasks_depending_on = s.tasks_depending_on ∧
    (notifyDependent s t).active_tasks = s.active_tasks := by
  unfold notifyDependent
  simp only []
  split <;> exact ⟨rfl, rfl, rfl, rfl⟩

theorem foldl_notify_fields (ts : List TaskID) (s : Sched) :
    (ts.foldl Sched.notify s).sys = ts.foldl notifyDependent s.sys ∧
    (ts.foldl Sched.notify s).in_flight = s.in_flight ∧
    (ts.foldl Sched.notify s).submitted = s.submitted ∧
    (ts.foldl Sched.notify s).popped = s.popped ∧
    (ts.foldl Sched.notify s).finished = s.finished ∧
    (ts.foldl Sched.notify s).readied = s.readied ++ promotions s.sys ts ∧
    (ts.foldl Sched.notify s).promoted = s.promoted ++ promotions s.sys ts ∧
    ∃ items, (ts.foldl notifyDependent s.sys).ready_queue = s.sys.ready_queue ++ items ∧
      (ts.foldl Sched.notify s).pushed = s.pushed ++ items := by
  induction ts generalizing s with
  | nil => exact ⟨rfl, rfl, rfl, rfl, rfl, by simp [promotions], by simp [promotions], [], by simp⟩
  | cons t ts ih =>
    obtain ⟨h1, h2, h3, h4, h5, h6, h7, items, h8, h9⟩ := ih (s.notify t)
    obtain ⟨it, hit⟩ := notifyDependent_queue s.sys t
    have hsys : (s.notify t).sys = notifyDependent s.sys t := rfl
    have hp : (s.notify t).pushed = s.pushed ++ it := by
      show s.pushed ++ (notifyDependent s.sys t).ready_queue.drop s.sys.ready_queue.length = _
      rw [hit, List.drop_left]
    have hr : (s.notify t).readied = s.readied ++ promotions s.sys [t] := rfl
    have hpr : (s.notify t).promoted = s.promoted ++ promotions s.sys [t] := rfl
    have hone : promotions s.sys (t :: ts) =
        promotions s.sys [t] ++ promotions (notifyDependent s.sys t) ts := by
      simp [promotions]
    simp only [List.foldl_cons]
    refine ⟨h1, h2, h3, h4, h5, ?_, ?_, it ++ items, ?_, ?_⟩
    · rw [h6, hr, hsys, hone, List.append_assoc]
    · rw [h7, hpr, hsys, hone, List.append_assoc]
    · rw [hsys] at h8
      rw [h8, hit, List.append_assoc]
    · rw [h9, hp, List.append_assoc]

theorem foldl_notifyDependent_fixed (ts : List TaskID) (s : TaskSystem) :
    (ts.foldl notifyDependent s).last_task_id = s.last_task_id ∧
    (ts.foldl notifyDependent s).is_task_done = s.is_task_done ∧
    (ts.foldl notifyDependent s).tasks_depending_on = s.tasks_depending_on ∧
    (ts.foldl notifyDependent s).active_tasks = s.active_tasks := by
  induction ts generalizing s with
  | nil => exact ⟨rfl, rfl, rfl, rfl⟩
  | cons t ts ih =>
    obtain ⟨a, b, c, d⟩ := ih (notifyDependent s t)
    obtain ⟨a1, b1, c1, d1⟩ := notifyDependent_fixed s t
    simp only [List.foldl_cons]
    exact ⟨a.trans a1, b.trans b1, c.trans c1, d.trans d1⟩

/-- The step `finish` is the fold of `Sched.notify` over the dependents list
followed by the three assignments that end `markTaskFinished`. -/
theorem finishStep_eq (s s1 : Sched) (item : ReadyTaskData)
    (h : s.finishStep item = some s1) :
    item ∈ s.in_flight ∧
    s1 = { (s.sys.tasks_depending_on item.id).foldl Sched.notify s with
           sys := { ((s.sys.tasks_depending_on item.id).foldl Sched.notify s).sys with
                    is_task_done := Function.update s.sys.is_task_done item.id true
                    active_tasks := s.sys.active_tasks - 1 }
           in_flight := s.in_flight.erase item
           finished := s.finished ++ [item] } := by
  unfold Sched.finishStep at h
  by_cases hm : item ∈ s.in_flight
  · refine ⟨hm, ?_⟩
    rw [if_pos hm] at h
    have h2 := (Option.some.inj h).symm
    rw [h2]
    obtain ⟨h1, -, h3, h4, -, h6, h7, items, h8, h9⟩ :=
      foldl_notify_fields (s.sys.tasks_depending_on item.id) s
    obtain ⟨-, b, -, d⟩ :=
      foldl_notifyDependent_fixed (s.sys.tasks_depending_on item.id) s.sys
    simp only [TaskSystem.markTaskFinished, h8, List.drop_left, h1, h3, h4, h6, h7, h9, b, d]
  · rw [if_neg hm] at h
    exact Option.noConfusion h

theorem inv_finish (s s1 : Sched) (item : ReadyTaskData) (hinv : Inv s)
    (h : s.finishStep item = some s1) : Inv s1 := by
  obtain ⟨hm, hs1⟩ := finishStep_eq s s1 item h
  have hF := inv_foldl_notify (s.sys.tasks_depending_on item.id) s hinv
  obtain ⟨-, -, h3, h4, -, -, -, -⟩ := foldl_notify_fields (s.sys.tasks_depending_on item.id) s
  rw [hs1]
  exact
    { last_eq := hF.last_eq
      ids := hF.ids
      queue := hF.queue
      flight := by
        intro x hx
        show x ∈ ((s.sys.tasks_depending_on item.id).foldl Sched.notify s).popped
        rw [h4]
        exact hinv.flight x (List.mem_of_mem_erase hx)
      pushed_sub := hF.pushed_sub
      pushed_nodup := hF.pushed_nodup
      readied_nodup := hF.readied_nodup
      readied_sub := hF.readied_sub
      promoted_sub := hF.promoted_sub
      waiting := hF.waiting
      complete := hF.complete
      done_sub := by
        intro t ht
        show ∃ b ∈ ((s.sys.tasks_depending_on item.id).foldl Sched.notify s).submitted, b.id = t
        rw [h3]
        have ht2 : Function.update s.sys.is_task_done item.id true t = true := ht
        by_cases hti : t = item.id
        · have hp : item ∈ s.pushed := by
            rw [hinv.queue]
            exact List.mem_append_left _ (hinv.flight item hm)
          obtain ⟨-, -, -, b, hb, hbid, -⟩ := hinv.pushed_sub item hp
          exact ⟨b, hb, hbid.trans hti.symm⟩
        · rw [Function.update_noteq hti] at ht2
          exact hinv.done_sub t ht2 }

theorem popStep_eq (s s1 : Sched) (h : s.popStep = some s1) :
    ∃ x rest, s.sys.ready_queue = x :: rest ∧
      s1 = { s with
             sys := { s.sys with ready_queue := rest, active_tasks := s.sys.active_tasks + 1 }
             in_flight := s.in_flight ++ [x]
             popped := s.popped ++ [x] } := by
  unfold Sched.popStep TaskSystem.popFront at h
  cases hq : s.sys.ready_queue with
  | nil =>
    rw [hq] at h
    exact Option.noConfusion h
  | cons x rest =>
    rw [hq] at h
    exact ⟨x, rest, rfl, (Option.some.inj h).symm⟩

theorem inv_pop (s s1 : Sched) (hinv : Inv s) (h : s.popStep = some s1) : Inv s1 := by
  obtain ⟨x, rest, hq, hs1⟩ := popStep_eq s s1 h
  rw [hs1]
  exact
    { last_eq := hinv.last_eq
      ids := hinv.ids
      queue := by
        show s.pushed = (s.popped ++ [x]) ++ rest
        rw [hinv.queue, hq]
        simp
      flight := by
        intro y hy
        rcases List.mem_append.mp hy with hy | hy
        · exact List.mem_append_left _ (hinv.flight y hy)
        · exact List.mem_append_right _ hy
      pushed_sub := hinv.pushed_sub
      pushed_nodup := hinv.pushed_nodup
      readied_nodup := hinv.readied_nodup
      readied_sub := hinv.readied_sub
      promoted_sub := hinv.promoted_sub
      waiting := hinv.waiting
      complete := hinv.complete
      done_sub := hinv.done_sub }

theorem runStep_direct (s : Sched) (r : Nat) (n : Int) (deps : List TaskID)
    (h0 : (scanDeps s.sys deps).2 = 0) :
    s.runStep r n deps =
      { s with
        sys := { s.sys with
                 last_task_id := s.sys.last_task_id + 1
                 tasks_depending_on := (scanDeps s.sys deps).1
                 ready_queue := s.sys.ready_queue ++ batchItems (s.sys.last_task_id + 1) r n }
        submitted := s.submitted ++ [{ id := s.sys.last_task_id + 1, runnable := r,
                                       num_total_tasks := n, deps := deps }]
        pushed := s.pushed ++ batchItems (s.sys.last_task_id + 1) r n
        readied := s.readied ++ [s.sys.last_task_id + 1] } := by
  simp [Sched.runStep, run_direct s.sys r n deps h0, h0]

theorem runStep_waiting (s : Sched) (r : Nat) (n : Int) (deps : List TaskID)
    (h0 : ¬ (scanDeps s.sys deps).2 = 0) :
    s.runStep r n deps =
      { s with
        sys := { s.sys with
                 last_task_id := s.sys.last_task_id + 1
                 tasks_depending_on := (scanDeps s.sys deps).1
                 waiting_list := Function.update s.sys.waiting_list (s.sys.last_task_id + 1)
                   (some { id := s.sys.last_task_id + 1, num_deps := (scanDeps s.sys deps).2,
                           runnable := r, num_total_tasks := n }) }
        submitted := s.submitted ++ [{ id := s.sys.last_task_id + 1, runnable := r,
                                       num_total_tasks := n, deps := deps }] } := by
  simp [Sched.runStep, run_waiting s.sys r n deps h0, h0]

theorem Inv.fresh_submitted {s : Sched} (h : Inv s) {b : Submission} (hb : b ∈ s.submitted) :
    b.id ≠ s.sys.last_task_id + 1 := by
  have := (h.id_bounds hb).2
  unfold TaskID at *
  omega

theorem Inv.fresh_readied {s : Sched} (h : Inv s) : s.sys.last_task_id + 1 ∉ s.readied := by
  intro hm
  obtain ⟨b, hb, hbid⟩ := h.readied_sub _ hm
  exact h.fresh_submitted hb hbid

theorem Inv.ids_succ {s : Sched} (h : Inv s) (r : Nat) (n : Int) (deps : List TaskID) :
    (s.submitted ++ [(⟨s.sys.last_task_id + 1, r, n, deps⟩ : Submission)]).map (fun b => b.id)
      = (List.range (s.submitted ++ [(⟨s.sys.last_task_id + 1, r, n, deps⟩ : Submission)]).length).map
          (fun (i : Nat) => (i : Int) + 1) := by
  simp [List.range_succ, h.ids, h.last_eq]

theorem inv_run (s : Sched) (r : Nat) (n : Int) (deps : List TaskID) (hinv : Inv s) :
    Inv (s.runStep r n deps) := by
  have hlen : s.sys.last_task_id + 1 =
      (((s.submitted ++ [(⟨s.sys.last_task_id + 1, r, n, deps⟩ : Submission)]).length : Nat) : Int) := by
    simp [hinv.last_eq]
  by_cases h0 : (scanDeps s.sys deps).2 = 0
  · rw [runStep_direct s r n deps h0]
    exact
      { last_eq := hlen
        ids := hinv.ids_succ r n deps
        queue := by
          show s.pushed ++ _ = s.popped ++ (s.sys.ready_queue ++ _)
          rw [hinv.queue, List.append_assoc]
        flight := hinv.flight
        pushed_sub := by
          intro x hx
          rcases List.mem_append.mp hx with hx | hx
          · obtain ⟨a, b, c, d, hd, e⟩ := hinv.pushed_sub x hx
            exact ⟨List.mem_append_left _ a, b, c, d, List.mem_append_left _ hd, e⟩
          · obtain ⟨i, hi, rfl⟩ := (mem_batchItems _ _ _ _).mp hx
            exact ⟨List.mem_append_right _ (List.mem_singleton_self _),
              Int.ofNat_nonneg i, hi, _, List.mem_append_right _ (List.mem_singleton_self _),
              rfl, rfl, rfl⟩
        pushed_nodup := by
          show ((s.pushed ++ batchItems (s.sys.last_task_id + 1) r n).map
            ReadyTaskData.key).Nodup
          rw [List.map_append, List.nodup_append]
          refine ⟨hinv.pushed_nodup, nodup_keys_batchItems _ _ _, ?_⟩
          intro k hk1 hk2
          obtain ⟨x, hx, rfl⟩ := List.mem_map.mp hk1
          obtain ⟨y, hy, hxy⟩ := List.mem_map.mp hk2
          obtain ⟨i, -, rfl⟩ := (mem_batchItems _ _ _ _).mp hy
          have hxt : x.id = s.sys.last_task_id + 1 := by
            have := congrArg Prod.fst hxy
            exact this.symm
          exact hinv.fresh_readied (hxt ▸ (hinv.pushed_sub x hx).1)
        readied_nodup := by
          show (s.readied ++ [s.sys.last_task_id + 1]).Nodup
          rw [List.nodup_append]
          refine ⟨hinv.readied_nodup, List.nodup_singleton _, ?_⟩
          intro a ha hb
          rw [List.mem_singleton] at hb
          exact hinv.fresh_readied (hb ▸ ha)
        readied_sub := by
          intro a ha
          rcases List.mem_append.mp ha with ha | ha
          · obtain ⟨b, hb, hbid⟩ := hinv.readied_sub a ha
            exact ⟨b, List.mem_append_left _ hb, hbid⟩
          · rw [List.mem_singleton] at ha
            exact ⟨_, List.mem_append_right _ (List.mem_singleton_self _), ha.symm⟩
        promoted_sub := hinv.promoted_sub.trans (List.sublist_append_left _ _)
        waiting := by
          intro a wa hwa
          obtain ⟨hne, hp⟩ := hinv.waiting a wa hwa
          refine ⟨hne, fun hpos => ?_⟩
          obtain ⟨c, d, b, hb, hbid, e⟩ := hp hpos
          refine ⟨c, ?_, b, List.mem_append_left _ hb, hbid, e⟩
          intro hm
          rcases List.mem_append.mp hm with hm | hm
          · exact d hm
          · rw [List.mem_singleton] at hm
            exact hinv.fresh_submitted hb (hbid.trans hm)
        complete := by
          intro b hb hbr i hi
          rcases List.mem_append.mp hb with hb | hb
          · rcases List.mem_append.mp hbr with hm | hm
            · exact List.mem_append_left _ (hinv.complete b hb hm i hi)
            · rw [List.mem_singleton] at hm
              exact absurd hm (hinv.fresh_submitted hb)
          · rw [List.mem_singleton] at hb
            subst hb
            exact List.mem_append_right _ ((mem_batchItems _ _ _ _).mpr ⟨i, hi, rfl⟩)
        done_sub := by
          intro t ht
          obtain ⟨b, hb, hbid⟩ := hinv.done_sub t ht
          exact ⟨b, List.mem_append_left _ hb, hbid⟩ }
  · rw [runStep_waiting s r n deps h0]
    exact
      { last_eq := hlen
        ids := hinv.ids_succ r n deps
        queue := hinv.queue
        flight := hinv.flight
        pushed_sub := by
          intro x hx
          obtain ⟨a, b, c, d, hd, e⟩ := hinv.pushed_sub x hx
          exact ⟨a, b, c, d, List.mem_append_left _ hd, e⟩
        pushed_nodup := hinv.pushed_nodup
        readied_nodup := hinv.readied_nodup
        readied_sub := by
          intro a ha
          obtain ⟨b, hb, hbid⟩ := hinv.readied_sub a ha
          exact ⟨b, List.mem_append_left _ hb, hbid⟩
        promoted_sub := hinv.promoted_sub
        waiting := by
          intro a wa hwa
          have hwa2 : Function.update s.sys.waiting_list (s.sys.last_task_id + 1)
              (some { id := s.sys.last_task_id + 1, num_deps := (scanDeps s.sys deps).2,
                      runnable := r, num_total_tasks := n }) a = some wa := hwa
          by_cases hat : a = s.sys.last_task_id + 1
          · rw [hat, Function.update_same] at hwa2
            have hwa3 := Option.some.inj hwa2
            subst hwa3
            rw [hat]
            exact ⟨h0, fun _ => ⟨rfl, hinv.fresh_readied, _,
              List.mem_append_right _ (List.mem_singleton_self _), rfl, rfl, rfl⟩⟩
          · rw [Function.update_noteq hat] at hwa2
            obtain ⟨hne, hp⟩ := hinv.waiting a wa hwa2
            refine ⟨hne, fun hpos => ?_⟩
            obtain ⟨c, d, b, hb, hbid, e⟩ := hp hpos
            exact ⟨c, d, b, List.mem_append_left _ hb, hbid, e⟩
        complete := by
          intro b hb hbr i hi
          rcases List.mem_append.mp hb with hb | hb
          · exact hinv.complete b hb hbr i hi
          · rw [List.mem_singleton] at hb
            subst hb
            exact absurd hbr hinv.fresh_readied
        done_sub := by
          intro t ht
          obtain ⟨b, hb, hbid⟩ := hinv.done_sub t ht
          exact ⟨b, List.mem_append_left _ hb, hbid⟩ }

theorem inv_init (num_threads : Int) : Inv (Sched.init num_threads) :=
  { last_eq := rfl
    ids := rfl
    queue := rfl
    flight := by intro x hx; exact absurd hx (List.not_mem_nil _)
    pushed_sub := by intro x hx; exact absurd hx (List.not_mem_nil _)
    pushed_nodup := List.nodup_nil
    readied_nodup := List.nodup_nil
    readied_sub := by intro x hx; exact absurd hx (List.not_mem_nil _)
    promoted_sub := List.Sublist.refl _
    waiting := by intro t w hw; exact Option.noConfusion hw
    complete := by intro x hx; exact absurd hx (List.not_mem_nil _)
    done_sub := by intro t ht; exact Bool.noConfusion ht }

theorem inv_step (s s1 : Sched) (l : Label) (hinv : Inv s) (h : s.step l = some s1) :
    Inv s1 := by
  cases l with
  | run r n deps =>
    have h2 : s.runStep r n deps = s1 := Option.some.inj h
    rw [← h2]
    exact inv_run s r n deps hinv
  | pop => exact inv_pop s s1 hinv h
  | finish item => exact inv_finish s s1 item hinv h

theorem inv_exec (tr : List Label) (s s1 : Sched) (hinv : Inv s) (h : exec s tr = some s1) :
    Inv s1 := by
  induction tr generalizing s with
  | nil =>
    have h2 : s = s1 := Option.some.inj h
    rw [← h2]
    exact hinv
  | cons l ls ih =>
    unfold exec at h
    cases hs : s.step l with
    | none =>
      rw [hs] at h
      exact Option.noConfusion h
    | some s2 =>
      rw [hs] at h
      exact ih s2 (inv_step s s2 l hinv hs) h

theorem inv_reachable (s : Sched) (h : Reachable s) : Inv s := by
  obtain ⟨nt, tr, htr⟩ := h
  exact inv_exec tr _ s (inv_init nt) htr

theorem runCount_cons (l : Label) (ls : List Label) :
    runCount (l :: ls) = runCount ls + (if l.isRun = true then 1 else 0) := by
  simp [runCount, List.countP_cons]

theorem step_submitted_length (s s1 : Sched) (l : Label) (h : s.step l = some s1) :
    s1.submitted.length = s.submitted.length + (if l.isRun = true then 1 else 0) := by
  cases l with
  | run r n deps =>
    have h2 : s.runStep r n deps = s1 := Option.some.inj h
    rw [← h2]
    simp [Sched.runStep, Label.isRun]
  | pop =>
    obtain ⟨x, rest, -, hs1⟩ := popStep_eq s s1 h
    rw [hs1]
    rfl
  | finish item =>
    obtain ⟨-, hs1⟩ := finishStep_eq s s1 item h
    obtain ⟨-, -, h3, -⟩ := foldl_notify_fields (s.sys.tasks_depending_on item.id) s
    rw [hs1]
    show ((s.sys.tasks_depending_on item.id).foldl Sched.notify s).submitted.length = _
    rw [h3]
    rfl

theorem countP_key_eq_one (l : List ReadyTaskData) (hnd : (l.map ReadyTaskData.key).Nodup)
    (x : ReadyTaskData) (hx : x ∈ l) :
    l.countP (fun y => decide (y.key = x.key)) = 1 := by
  induction l with
  | nil => exact absurd hx (List.not_mem_nil _)
  | cons a l ih =>
    rw [List.map_cons, List.nodup_cons] at hnd
    obtain ⟨hna, hndl⟩ := hnd
    rcases List.mem_cons.mp hx with hxa | hxl
    · subst hxa
      have hz : l.countP (fun y => decide (y.key = x.key)) = 0 := by
        rw [List.countP_eq_zero]
        intro y hy hyk
        have hyk2 : y.key = x.key := by simpa using hyk
        exact hna (List.mem_map.mpr ⟨y, hy, hyk2⟩)
      simp [List.countP_cons, hz]
    · have hne : ¬ a.key = x.key := by
        intro hak
        exact hna (List.mem_map.mpr ⟨x, hxl, hak.symm⟩)
      simp [List.countP_cons, hne, ih hndl hxl]

theorem exec_submitted_length (tr : List Label) (s s1 : Sched) (h : exec s tr = some s1) :
    s1.submitted.length = s.submitted.length + runCount tr := by
  induction tr generalizing s with
  | nil =>
    have h2 : s = s1 := Option.some.inj h
    rw [← h2]
    rfl
  | cons l ls ih =>
    unfold exec at h
    cases hs : s.step l with
    | none =>
      rw [hs] at h
      exact Option.noConfusion h
    | some s2 =>
      rw [hs] at h
      rw [ih s2 h, step_submitted_length s s2 l hs, runCount_cons]
      omega

theorem run_pending_facts (s : TaskSystem) (r : Nat) (n : Int)
    (deps : List TaskID) (h : ∃ t ∈ deps, s.is_task_done t = false) :
    (s.run r n deps).2 = s.last_task_id + 1 ∧
    (s.run r n deps).1.ready_queue = s.ready_queue ∧
    (s.run r n deps).1.waiting_list (s.last_task_id + 1) =
      some { id := s.last_task_id + 1,
             num_deps := ((deps.filter (fun t => !(s.is_task_done t))).length : Int),
             runnable := r, num_total_tasks := n } ∧
    (∀ t, t ≠ s.last_task_id + 1 → (s.run r n deps).1.waiting_list t = s.waiting_list t) ∧
    (∀ t, (s.run r n deps).1.tasks_depending_on t = s.tasks_depending_on t ++
      (if s.is_task_done t = true then []
       else List.replicate (deps.count t) (s.last_task_id + 1))) := by
  have h0 : ¬ (scanDeps s deps).2 = 0 := by
    rw [scanDeps_snd_eq_zero_iff]
    obtain ⟨t, ht, hf⟩ := h
    intro hall
    rw [hall t ht] at hf
    exact Bool.noConfusion hf
  rw [run_waiting s r n deps h0]
  refine ⟨rfl, rfl, ?_, ?_, ?_⟩
  · simp [scanDeps_snd]
  · intro t ht
    simp [Function.update_noteq ht]
  · intro t
    exact scanDeps_fst s deps t

/-! ## Further invariants -/

theorem reachable_induction (P : Sched → Prop) (hinit : ∀ nt, P (Sched.init nt))
    (hstep : ∀ s s1 l, Inv s → P s → s.step l = some s1 → P s1) :
    ∀ s, Reachable s → P s := by
  have hexec : ∀ (tr : List Label) (s s1 : Sched), Inv s → P s → exec s tr = some s1 → P s1 := by
    intro tr
    induction tr with
    | nil =>
      intro s s1 _ hp h
      have h2 : s = s1 := Option.some.inj h
      rw [← h2]
      exact hp
    | cons l ls ih =>
      intro s s1 hinv hp h
      unfold exec at h
      cases hs : s.step l with
      | none =>
        rw [hs] at h
        exact Option.noConfusion h
      | some s2 =>
        rw [hs] at h
        exact ih s2 s1 (inv_step s s2 l hinv hs) (hstep s s2 l hinv hp hs) h
  intro s hr
  obtain ⟨nt, tr, htr⟩ := hr
  exact hexec tr _ s (inv_init nt) (hinit nt) htr

/-- The state after `finish` in terms of the state `sF` after the propagation
loop, with the fields that the loop leaves alone. -/
theorem finish_decompose (s s1 : Sched) (item : ReadyTaskData)
    (h : s.finishStep item = some s1) :
    item ∈ s.in_flight ∧
    ∃ sF, sF = (s.sys.tasks_depending_on item.id).foldl Sched.notify s ∧
      s1 = { sF with
             sys := { sF.sys with
                      is_task_done := Function.update s.sys.is_task_done item.id true
                      active_tasks := s.sys.active_tasks - 1 }
             in_flight := s.in_flight.erase item
             finished := s.finished ++ [item] } ∧
      sF.in_flight = s.in_flight ∧ sF.submitted = s.submitted ∧ sF.popped = s.popped ∧
      sF.finished = s.finished ∧ sF.sys.is_task_done = s.sys.is_task_done ∧
      sF.sys.tasks_depending_on = s.sys.tasks_depending_on ∧
      sF.sys.active_tasks = s.sys.active_tasks := by
  obtain ⟨hm, hs1⟩ := finishStep_eq s s1 item h
  obtain ⟨h1, h2, h3, h4, h5, -⟩ := foldl_notify_fields (s.sys.tasks_depending_on item.id) s
  obtain ⟨-, b, c, d⟩ := foldl_notifyDependent_fixed (s.sys.tasks_depending_on item.id) s.sys
  refine ⟨hm, _, rfl, hs1, h2, h3, h4, h5, ?_, ?_, ?_⟩
  · rw [h1]
    exact b
  · rw [h1]
    exact c
  · rw [h1]
    exact d

theorem itemsOfAll_append (subs : List Submission) (a b : List TaskID) :
    itemsOfAll subs (a ++ b) = itemsOfAll subs a ++ itemsOfAll subs b := by
  induction a with
  | nil => rfl
  | cons t ts ih => simp [itemsOfAll, ih]

theorem itemsOfAll_singleton (subs : List Submission) (t : TaskID) :
    itemsOfAll subs [t] = itemsOf subs t := by
  simp [itemsOfAll]

theorem itemsOfAll_congr (subs subs1 : List Submission) (ts : List TaskID)
    (h : ∀ t ∈ ts, itemsOf subs1 t = itemsOf subs t) :
    itemsOfAll subs1 ts = itemsOfAll subs ts := by
  induction ts with
  | nil => rfl
  | cons t ts ih =>
    simp only [itemsOfAll]
    rw [h t (List.mem_cons_self _ _), ih (fun u hu => h u (List.mem_cons_of_mem _ hu))]

theorem itemsOf_append_old (subs extra : List Submission) (t : TaskID)
    (h : ∃ b ∈ subs, b.id = t) : itemsOf (subs ++ extra) t = itemsOf subs t := by
  obtain ⟨b, hb, hbt⟩ := h
  unfold itemsOf
  rw [List.find?_append]
  cases hf : subs.find? (fun b => decide (b.id = t)) with
  | none =>
    rw [List.find?_eq_none] at hf
    exact absurd (by simpa using hbt) (hf b hb)
  | some c => rfl

theorem itemsOf_append_new (subs : List Submission) (t : TaskID) (r : Nat) (n : Int)
    (deps : List TaskID) (h : ∀ b ∈ subs, b.id ≠ t) :
    itemsOf (subs ++ [(⟨t, r, n, deps⟩ : Submission)]) t = batchItems t r n := by
  unfold itemsOf
  rw [List.find?_append]
  have hn : subs.find? (fun b => decide (b.id = t)) = none := by
    rw [List.find?_eq_none]
    intro b hb
    simpa using h b hb
  rw [hn]
  simp

theorem Inv.itemsOf_mem {s : Sched} (hinv : Inv s) {b : Submission} (hb : b ∈ s.submitted) :
    itemsOf s.submitted b.id = batchItems b.id b.runnable b.num_total_tasks := by
  unfold itemsOf
  cases hf : s.submitted.find? (fun c => decide (c.id = b.id)) with
  | none =>
    rw [List.find?_eq_none] at hf
    exact absurd (by simp) (hf b hb)
  | some c =>
    have hc : c.id = b.id := by simpa using List.find?_some hf
    have hcb : c = b := hinv.id_inj (List.mem_of_find?_eq_some hf) hb hc
    rw [hcb]

theorem inv2_init (num_threads : Int) : Inv2 (Sched.init num_threads) :=
  { active := rfl
    lens := rfl
    perm := List.Perm.refl _
    flight_sub := List.Sublist.refl _
    done_readied := by intro t ht; exact Bool.noConfusion ht
    done_finished := by
      intro t
      constructor
      · intro ht
        exact Bool.noConfusion ht
      · rintro ⟨x, hx, -⟩
        exact absurd hx (List.not_mem_nil _)
    fifo := rfl }

theorem inv2_run (s : Sched) (r : Nat) (n : Int) (deps : List TaskID) (hinv : Inv s)
    (h2 : Inv2 s) : Inv2 (s.runStep r n deps) := by
  have hold : ∀ t ∈ s.readied,
      itemsOf (s.submitted ++ [(⟨s.sys.last_task_id + 1, r, n, deps⟩ : Submission)]) t
        = itemsOf s.submitted t :=
    fun t ht => itemsOf_append_old _ _ t (hinv.readied_sub t ht)
  by_cases h0 : (scanDeps s.sys deps).2 = 0
  · rw [runStep_direct s r n deps h0]
    exact
      { active := h2.active
        lens := h2.lens
        perm := h2.perm
        flight_sub := h2.flight_sub
        done_readied := fun t ht => List.mem_append_left _ (h2.done_readied t ht)
        done_finished := h2.done_finished
        fifo := by
          show s.pushed ++ batchItems (s.sys.last_task_id + 1) r n = itemsOfAll _ (s.readied ++ _)
          rw [itemsOfAll_append, itemsOfAll_singleton, itemsOfAll_congr _ _ _ hold,
            itemsOf_append_new _ _ _ _ _ (fun b hb => hinv.fresh_submitted hb), ← h2.fifo] }
  · rw [runStep_waiting s r n deps h0]
    exact
      { active := h2.active
        lens := h2.lens
        perm := h2.perm
        flight_sub := h2.flight_sub
        done_readied := h2.done_readied
        done_finished := h2.done_finished
        fifo := by
          show s.pushed = itemsOfAll _ s.readied
          rw [itemsOfAll_congr _ _ _ hold, ← h2.fifo] }

theorem inv2_pop (s s1 : Sched) (h2 : Inv2 s) (h : s.popStep = some s1) : Inv2 s1 := by
  obtain ⟨x, rest, hq, hs1⟩ := popStep_eq s s1 h
  rw [hs1]
  exact
    { active := by
        show s.sys.active_tasks + 1 = ((s.in_flight ++ [x]).length : Int)
        rw [h2.active]
        simp
      lens := by
        show (s.popped ++ [x]).length = s.finished.length + (s.in_flight ++ [x]).length
        simp only [List.length_append, List.length_singleton]
        have := h2.lens
        omega
      perm := by
        show (s.popped ++ [x]).Perm (s.finished ++ (s.in_flight ++ [x]))
        rw [← List.append_assoc]
        exact h2.perm.append_right [x]
      flight_sub := h2.flight_sub.append (List.Sublist.refl _)
      done_readied := h2.done_readied
      done_finished := h2.done_finished
      fifo := h2.fifo }

theorem inv2_notify (s : Sched) (t : TaskID) (hinv : Inv s) (h2 : Inv2 s) :
    Inv2 (s.notify t) := by
  by_cases h : ((s.sys.waiting_list t).getD WaitingTaskBatchData.zero).num_deps - 1 = 0
  · obtain ⟨w, hw, h1⟩ := promote_cond s.sys t h
    rw [notify_promote s t w hw h1]
    obtain ⟨hid, -, b0, hb0, hb0id, hb0r, hb0n⟩ := (hinv.waiting t w hw).2 (by omega)
    exact
      { active := h2.active
        lens := h2.lens
        perm := h2.perm
        flight_sub := h2.flight_sub
        done_readied := fun u hu => List.mem_append_left _ (h2.done_readied u hu)
        done_finished := h2.done_finished
        fifo := by
          show s.pushed ++ batchItems w.id w.runnable w.num_total_tasks
            = itemsOfAll s.submitted (s.readied ++ [t])
          rw [itemsOfAll_append, itemsOfAll_singleton, ← h2.fifo, ← hb0id,
            hinv.itemsOf_mem hb0, hid, hb0id, hb0r, hb0n] }
  · rw [notify_decr s t h]
    exact
      { active := h2.active
        lens := h2.lens
        perm := h2.perm
        flight_sub := h2.flight_sub
        done_readied := h2.done_readied
        done_finished := h2.done_finished
        fifo := h2.fifo }

theorem inv2_foldl_notify (ts : List TaskID) (s : Sched) (hinv : Inv s) (h2 : Inv2 s) :
    Inv2 (ts.foldl Sched.notify s) := by
  induction ts generalizing s with
  | nil => exact h2
  | cons t ts ih => exact ih _ (inv_notify s t hinv) (inv2_notify s t hinv h2)

theorem inv2_finish (s s1 : Sched) (item : ReadyTaskData) (hinv : Inv s) (h2 : Inv2 s)
    (h : s.finishStep item = some s1) : Inv2 s1 := by
  obtain ⟨hm, sF, hsF, hs1, -, -, e_pop, -, e_done, -, -⟩ := finish_decompose s s1 item h
  have hF : Inv sF := hsF ▸ inv_foldl_notify _ s hinv
  have h2F : Inv2 sF := hsF ▸ inv2_foldl_notify _ s hinv h2
  have hlen : 0 < s.in_flight.length := List.length_pos_of_mem hm
  rw [hs1]
  exact
    { active := by
        show s.sys.active_tasks - 1 = ((s.in_flight.erase item).length : Int)
        rw [List.length_erase_of_mem hm, h2.active]
        omega
      lens := by
        show sF.popped.length = (s.finished ++ [item]).length + (s.in_flight.erase item).length
        rw [e_pop, List.length_erase_of_mem hm, List.length_append, List.length_singleton]
        have := h2.lens
        omega
      perm := by
        show sF.popped.Perm ((s.finished ++ [item]) ++ s.in_flight.erase item)
        rw [e_pop, List.append_assoc]
        exact h2.perm.trans ((List.perm_cons_erase hm).append_left s.finished)
      flight_sub := by
        show (s.in_flight.erase item).Sublist sF.popped
        rw [e_pop]
        exact (List.erase_sublist _ _).trans h2.flight_sub
      done_readied := by
        intro t ht
        have ht2 : Function.update s.sys.is_task_done item.id true t = true := ht
        show t ∈ sF.readied
        by_cases hti : t = item.id
        · have hp : item ∈ sF.pushed := by
            rw [hF.queue, e_pop]
            exact List.mem_append_left _ (hinv.flight item hm)
          rw [hti]
          exact (hF.pushed_sub item hp).1
        · rw [Function.update_noteq hti] at ht2
          exact h2F.done_readied t (e_done ▸ ht2)
      done_finished := by
        intro t
        show Function.update s.sys.is_task_done item.id true t = true ↔
          ∃ x ∈ s.finished ++ [item], x.id = t
        by_cases hti : t = item.id
        · rw [hti, Function.update_same]
          exact ⟨fun _ => ⟨item, List.mem_append_right _ (List.mem_singleton_self _), rfl⟩,
            fun _ => rfl⟩
        · rw [Function.update_noteq hti, h2.done_finished t]
          constructor
          · rintro ⟨x, hx, hxt⟩
            exact ⟨x, List.mem_append_left _ hx, hxt⟩
          · rintro ⟨x, hx, hxt⟩
            rcases List.mem_append.mp hx with hx | hx
            · exact ⟨x, hx, hxt⟩
            · rw [List.mem_singleton] at hx
              exact absurd (hx ▸ hxt).symm hti
      fifo := h2F.fifo }

theorem inv2_reachable (s : Sched) (h : Reachable s) : Inv2 s := by
  refine reachable_induction Inv2 inv2_init ?_ s h
  intro s s1 l hinv h2 hs
  cases l with
  | run r n deps =>
    have e : s.runStep r n deps = s1 := Option.some.inj hs
    rw [← e]
    exact inv2_run s r n deps hinv h2
  | pop => exact inv2_pop s s1 h2 hs
  | finish item => exact inv2_finish s s1 item hinv h2 hs

theorem pairwise_indexOf (l : List TaskID) (h : l.Nodup) :
    l.Pairwise (fun a b => l.indexOf a < l.indexOf b) := by
  induction l with
  | nil => exact List.Pairwise.nil
  | cons a l ih =>
    rw [List.nodup_cons] at h
    rw [List.pairwise_cons]
    constructor
    · intro b hb
      have hne : a ≠ b := fun e => h.1 (e ▸ hb)
      rw [List.indexOf_cons_self, List.indexOf_cons_ne _ hne]
      exact Nat.succ_pos _
    · refine List.Pairwise.imp_of_mem ?_ (ih h.2)
      intro x y hx hy hxy
      have hax : a ≠ x := fun e => h.1 (e ▸ hx)
      have hay : a ≠ y := fun e => h.1 (e ▸ hy)
      rw [List.indexOf_cons_ne _ hax, List.indexOf_cons_ne _ hay]
      exact Nat.succ_lt_succ hxy

theorem pairwise_batchItems (id : TaskID) (r : Nat) (n : Int) :
    (batchItems id r n).Pairwise (fun x y => x.id = y.id ∧ x.index < y.index) := by
  unfold batchItems
  rw [List.pairwise_map]
  refine List.Pairwise.imp ?_ (List.pairwise_lt_range n.toNat)
  intro i j hij
  refine ⟨rfl, ?_⟩
  show (i : Int) < (j : Int)
  exact_mod_cast hij

theorem itemsOf_id (subs : List Submission) (t : TaskID) (x : ReadyTaskData)
    (hx : x ∈ itemsOf subs t) : x.id = t := by
  unfold itemsOf at hx
  cases hf : subs.find? (fun b => decide (b.id = t)) with
  | none =>
    rw [hf] at hx
    exact absurd hx (List.not_mem_nil _)
  | some b =>
    rw [hf] at hx
    obtain ⟨i, -, rfl⟩ := (mem_batchItems _ _ _ _).mp hx
    simpa using List.find?_some hf

theorem pairwise_itemsOf (subs : List Submission) (t : TaskID) :
    (itemsOf subs t).Pairwise (fun x y => x.id = y.id ∧ x.index < y.index) := by
  unfold itemsOf
  cases subs.find? (fun b => decide (b.id = t)) with
  | none => exact List.Pairwise.nil
  | some b => exact pairwise_batchItems _ _ _

theorem mem_itemsOfAll (subs : List Submission) (ts : List TaskID) (x : ReadyTaskData)
    (hx : x ∈ itemsOfAll subs ts) : x.id ∈ ts := by
  induction ts with
  | nil => exact absurd hx (List.not_mem_nil _)
  | cons t ts ih =>
    simp only [itemsOfAll] at hx
    rcases List.mem_append.mp hx with h | h
    · rw [itemsOf_id subs t x h]
      exact List.mem_cons_self _ _
    · exact List.mem_cons_of_mem _ (ih h)

theorem pairwise_itemsOfAll (subs : List Submission) (f : TaskID → Nat) (ts : List TaskID)
    (h : ts.Pairwise (fun a b => f a < f b)) :
    (itemsOfAll subs ts).Pairwise
      (fun x y => f x.id < f y.id ∨ (x.id = y.id ∧ x.index < y.index)) := by
  induction ts with
  | nil => exact List.Pairwise.nil
  | cons t ts ih =>
    rw [List.pairwise_cons] at h
    simp only [itemsOfAll]
    rw [List.pairwise_append]
    refine ⟨(pairwise_itemsOf subs t).imp (fun hxy => Or.inr hxy), ih h.2, ?_⟩
    intro x hx y hy
    have hxt := itemsOf_id subs t x hx
    have hyt := mem_itemsOfAll subs ts y hy
    rw [hxt]
    exact Or.inl (h.1 _ hyt)

theorem precedes_asymm (s : Sched) (x y : ReadyTaskData) (h : s.precedes x y) :
    ¬ s.precedes y x := by
  intro h2
  unfold Sched.precedes at h h2
  rcases h with h | ⟨he, hi⟩ <;> rcases h2 with h2 | ⟨he2, hi2⟩
  · omega
  · rw [he2] at h
    omega
  · rw [he] at h2
    omega
  · omega

theorem precedes_irrefl (s : Sched) (y : ReadyTaskData) : ¬ s.precedes y y := by
  intro h
  exact precedes_asymm s y y h h

theorem pushed_pairwise (s : Sched) (hinv : Inv s) (h2 : Inv2 s) :
    s.pushed.Pairwise (fun x y => s.precedes x y) := by
  rw [h2.fifo]
  exact pairwise_itemsOfAll s.submitted (fun t => s.readied.indexOf t) s.readied
    (pairwise_indexOf s.readied hinv.readied_nodup)

theorem popped_before (s : Sched) (hinv : Inv s) (h2 : Inv2 s) (l1 l2 : List ReadyTaskData)
    (y : ReadyTaskData) (hp : s.popped = l1 ++ y :: l2) (x : ReadyTaskData)
    (hx : x ∈ s.pushed) (hxy : s.precedes x y) : x ∈ l1 := by
  have hpw := pushed_pairwise s hinv h2
  have hq : s.pushed = l1 ++ y :: (l2 ++ s.sys.ready_queue) := by
    rw [hinv.queue, hp]
    simp
  rw [hq] at hx hpw
  rw [List.pairwise_append, List.pairwise_cons] at hpw
  rcases List.mem_append.mp hx with h | h
  · exact h
  · rcases List.mem_cons.mp h with h | h
    · rw [h] at hxy
      exact absurd hxy (precedes_irrefl s y)
    · exact absurd hxy (precedes_asymm s y x (hpw.2.1.1 x h))

theorem markTaskFinished_active (s : TaskSystem) (item : ReadyTaskData) :
    (s.markTaskFinished item).active_tasks = s.active_tasks - 1 := by
  obtain ⟨-, -, -, d⟩ := foldl_notifyDependent_fixed (s.tasks_depending_on item.id) s
  simp [TaskSystem.markTaskFinished, d]

theorem run_active (s : TaskSystem) (r : Nat) (n : Int) (deps : List TaskID) :
    (s.run r n deps).1.active_tasks = s.active_tasks := by
  by_cases h0 : (scanDeps s deps).2 = 0
  · rw [run_direct s r n deps h0]
  · rw [run_waiting s r n deps h0]

/-! ## Batches of at most one item: preservation -/

theorem pendingCount_nil (done : TaskID → Bool) : pendingCount done [] = 0 := rfl

theorem pendingCount_cons (done : TaskID → Bool) (d : TaskID) (ds : List TaskID) :
    pendingCount done (d :: ds) = pendingCount done ds + (if done d = true then 0 else 1) := by
  unfold pendingCount
  by_cases h : done d = true
  · simp [List.filter_cons, h]
  · have h2 : done d = false := by simpa using h
    simp [List.filter_cons, h2]

theorem count_le_pendingCount (done : TaskID → Bool) (a : TaskID) (ha : done a = false)
    (deps : List TaskID) : deps.count a ≤ pendingCount done deps := by
  induction deps with
  | nil => simp
  | cons d ds ih =>
    rw [pendingCount_cons, List.count_cons]
    by_cases hda : d = a
    · subst hda
      simp [ha]
      exact ih
    · have hne : (d == a) = false := by simpa using hda
      by_cases hd : done d = true <;> simp [hne, hd] <;> omega

theorem pendingCount_update (done : TaskID → Bool) (a : TaskID) (ha : done a = false)
    (deps : List TaskID) :
    pendingCount (Function.update done a true) deps + deps.count a = pendingCount done deps := by
  induction deps with
  | nil => simp [pendingCount_nil]
  | cons d ds ih =>
    rw [pendingCount_cons, pendingCount_cons, List.count_cons]
    by_cases hda : d = a
    · subst hda
      simp [ha]
      omega
    · have hne : (d == a) = false := by simpa using hda
      simp only [hne, Function.update_noteq hda]
      split <;> simp <;> omega

theorem pendingCount_eq_count (done : TaskID → Bool) (a0 : TaskID) (ha : done a0 = false)
    (deps : List TaskID) (h : pendingCount done deps = deps.count a0) :
    ∀ a ∈ deps, a = a0 ∨ done a = true := by
  induction deps with
  | nil =>
    intro a hmem
    exact absurd hmem (List.not_mem_nil _)
  | cons d ds ih =>
    rw [pendingCount_cons, List.count_cons] at h
    have hle := count_le_pendingCount done a0 ha ds
    by_cases hda : d = a0
    · subst hda
      simp [ha] at h
      intro a hmem
      rcases List.mem_cons.mp hmem with e | hm
      · exact Or.inl e
      · exact ih h a hm
    · have hne : (d == a0) = false := by simpa using hda
      simp only [hne] at h
      by_cases hd : done d = true
      · simp [hd] at h
        intro a hmem
        rcases List.mem_cons.mp hmem with e | hm
        · exact Or.inr (e ▸ hd)
        · exact ih h a hm
      · simp [hd] at h
        omega

theorem pendingCount_eq_zero_iff (done : TaskID → Bool) (deps : List TaskID) :
    pendingCount done deps = 0 ↔ ∀ t ∈ deps, done t = true := by
  induction deps with
  | nil => simp [pendingCount_nil]
  | cons d ds ih =>
    rw [pendingCount_cons]
    by_cases hd : done d = true
    · simp [hd, ih]
    · simp [hd]

theorem scanDeps_snd_pending (s : TaskSystem) (deps : List TaskID) :
    (scanDeps s deps).2 = (pendingCount s.is_task_done deps : Int) :=
  scanDeps_snd s deps

theorem single_init (num_threads : Int) : Single (Sched.init num_threads) :=
  { counter := by intro t w hw; exact Option.noConfusion hw
    edges := by
      intro a _ d
      exact ⟨fun _ => rfl, fun b hb _ _ => absurd hb (List.not_mem_nil _)⟩
    pending := by
      intro x hx
      rcases hx with hx | hx <;> exact absurd hx (List.not_mem_nil _)
    ordered := by intro b hb; exact absurd hb (List.not_mem_nil _) }

/-- With the counters of `Single`, the id that `run` is about to issue has no
waiting entry. -/
theorem Single.waiting_fresh {s : Sched} (hs : Single s) (hinv : Inv s) :
    s.sys.waiting_list (s.sys.last_task_id + 1) = none := by
  cases hw : s.sys.waiting_list (s.sys.last_task_id + 1) with
  | none => rfl
  | some w =>
    obtain ⟨-, -, b, hb, hbid, -⟩ := (hinv.waiting _ w hw).2 (hs.counter _ w hw).1
    exact absurd hbid (hinv.fresh_submitted hb)

theorem Inv.done_fresh {s : Sched} (hinv : Inv s) :
    s.sys.is_task_done (s.sys.last_task_id + 1) = false := by
  cases hd : s.sys.is_task_done (s.sys.last_task_id + 1) with
  | false => rfl
  | true =>
    obtain ⟨b, hb, hbid⟩ := hinv.done_sub _ hd
    exact absurd hbid (hinv.fresh_submitted hb)

theorem mem_append_new_old {s : Sched} (hinv : Inv s) (r : Nat) (n : Int)
    (deps : List TaskID) {b : Submission}
    (hb : b ∈ s.submitted ++ [(⟨s.sys.last_task_id + 1, r, n, deps⟩ : Submission)]) :
    (b ∈ s.submitted ∧ b.id ≠ s.sys.last_task_id + 1) ∨
    (b = ⟨s.sys.last_task_id + 1, r, n, deps⟩) := by
  rcases List.mem_append.mp hb with h | h
  · exact Or.inl ⟨h, hinv.fresh_submitted h⟩
  · exact Or.inr (List.mem_singleton.mp h)

theorem single_run (s : Sched) (r : Nat) (n : Int) (deps : List TaskID) (hinv : Inv s)
    (hs : Single s) : Single (s.runStep r n deps) := by
  have hfresh := hs.waiting_fresh hinv
  by_cases h0 : (scanDeps s.sys deps).2 = 0
  · have hall : ∀ t ∈ deps, s.sys.is_task_done t = true :=
      (scanDeps_snd_eq_zero_iff s.sys deps).mp h0
    have htdo : (scanDeps s.sys deps).1 = s.sys.tasks_depending_on :=
      scanDeps_fst_of_done s.sys deps hall
    rw [runStep_direct s r n deps h0]
    exact
      { counter := by
          intro t w hw
          have hw2 : s.sys.waiting_list t = some w := hw
          obtain ⟨hpos, hc⟩ := hs.counter t w hw2
          refine ⟨hpos, fun b hb hbt => ?_⟩
          rcases mem_append_new_old hinv r n deps hb with ⟨hold, -⟩ | hnew
          · exact hc b hold hbt
          · have ht : t = s.sys.last_task_id + 1 := by rw [← hbt, hnew]
            rw [ht, hfresh] at hw2
            exact Option.noConfusion hw2
        edges := by
          intro a ha d
          obtain ⟨e1, e2⟩ := hs.edges a ha d
          constructor
          · intro hn
            show ((scanDeps s.sys deps).1 a).count d = 0
            rw [htdo]
            exact e1 hn
          · intro b hb hbd hne
            show ((scanDeps s.sys deps).1 a).count d = b.deps.count a
            rw [htdo]
            rcases mem_append_new_old hinv r n deps hb with ⟨hold, -⟩ | hnew
            · exact e2 b hold hbd hne
            · have hd : d = s.sys.last_task_id + 1 := by rw [← hbd, hnew]
              rw [hd] at hne
              exact absurd hfresh hne
        pending := by
          intro x hx
          rcases hx with hx | hx
          · exact hs.pending x (Or.inl hx)
          · rcases List.mem_append.mp hx with hx | hx
            · exact hs.pending x (Or.inr hx)
            · obtain ⟨i, -, rfl⟩ := (mem_batchItems _ _ _ _).mp hx
              exact hinv.done_fresh
        ordered := by
          intro b hb hbr a ha
          rcases mem_append_new_old hinv r n deps hb with ⟨hold, hne⟩ | hnew
          · rcases List.mem_append.mp hbr with hm | hm
            · exact hs.ordered b hold hm a ha
            · exact absurd (List.mem_singleton.mp hm) hne
          · rw [hnew] at ha
            exact hall a ha }
  · rw [runStep_waiting s r n deps h0]
    have hk := scanDeps_snd_pending s.sys deps
    exact
      { counter := by
          intro t w hw
          have hw2 : Function.update s.sys.waiting_list (s.sys.last_task_id + 1)
              (some { id := s.sys.last_task_id + 1, num_deps := (scanDeps s.sys deps).2,
                      runnable := r, num_total_tasks := n }) t = some w := hw
          by_cases ht : t = s.sys.last_task_id + 1
          · rw [ht, Function.update_same] at hw2
            have hw3 := Option.some.inj hw2
            subst hw3
            refine ⟨?_, fun b hb hbt => ?_⟩
            · show 0 < (scanDeps s.sys deps).2
              omega
            · rcases mem_append_new_old hinv r n deps hb with ⟨-, hne⟩ | hnew
              · exact absurd (hbt.trans ht) hne
              · rw [hnew]
                exact hk
          · rw [Function.update_noteq ht] at hw2
            obtain ⟨hpos, hc⟩ := hs.counter t w hw2
            refine ⟨hpos, fun b hb hbt => ?_⟩
            rcases mem_append_new_old hinv r n deps hb with ⟨hold, -⟩ | hnew
            · exact hc b hold hbt
            · exact absurd (by rw [← hbt, hnew]) ht
        edges := by
          intro a ha d
          have ha2 : s.sys.is_task_done a = false := ha
          have htdo : (scanDeps s.sys deps).1 a = s.sys.tasks_depending_on a ++
              List.replicate (deps.count a) (s.sys.last_task_id + 1) := by
            rw [scanDeps_fst]
            simp [ha2]
          obtain ⟨e1, e2⟩ := hs.edges a ha2 d
          constructor
          · intro hn
            have hn2 : Function.update s.sys.waiting_list (s.sys.last_task_id + 1)
                (some { id := s.sys.last_task_id + 1, num_deps := (scanDeps s.sys deps).2,
                        runnable := r, num_total_tasks := n }) d = none := hn
            have hd : d ≠ s.sys.last_task_id + 1 := by
              intro e
              rw [e, Function.update_same] at hn2
              exact Option.noConfusion hn2
            rw [Function.update_noteq hd] at hn2
            show ((scanDeps s.sys deps).1 a).count d = 0
            rw [htdo, List.count_append, List.count_replicate, e1 hn2]
            have hbeq : (s.sys.last_task_id + 1 == d) = false := by
              simpa using fun e => hd e.symm
            simp [hbeq]
          · intro b hb hbd hne
            have hne2 : Function.update s.sys.waiting_list (s.sys.last_task_id + 1)
                (some { id := s.sys.last_task_id + 1, num_deps := (scanDeps s.sys deps).2,
                        runnable := r, num_total_tasks := n }) d ≠ none := hne
            show ((scanDeps s.sys deps).1 a).count d = b.deps.count a
            rw [htdo, List.count_append, List.count_replicate]
            rcases mem_append_new_old hinv r n deps hb with ⟨hold, hbne⟩ | hnew
            · have hd : d ≠ s.sys.last_task_id + 1 := hbd ▸ hbne
              rw [Function.update_noteq hd] at hne2
              have hbeq : (s.sys.last_task_id + 1 == d) = false := by
                simpa using fun e => hd e.symm
              rw [e2 b hold hbd hne2]
              simp [hbeq]
            · have hd : d = s.sys.last_task_id + 1 := by rw [← hbd, hnew]
              have hz := (hs.edges a ha2 (s.sys.last_task_id + 1)).1 hfresh
              rw [hd, hz, hnew]
              simp
        pending := hs.pending
        ordered := by
          intro b hb hbr a ha
          rcases mem_append_new_old hinv r n deps hb with ⟨hold, -⟩ | hnew
          · exact hs.ordered b hold hbr a ha
          · rw [hnew] at hbr
            exact absurd hbr hinv.fresh_readied }

theorem single_pop (s s1 : Sched) (hs : Single s) (h : s.popStep = some s1) : Single s1 := by
  obtain ⟨x, rest, hq, hs1⟩ := popStep_eq s s1 h
  rw [hs1]
  exact
    { counter := hs.counter
      edges := hs.edges
      pending := by
        intro y hy
        apply hs.pending y
        rcases hy with hy | hy
        · rcases List.mem_append.mp hy with hy | hy
          · exact Or.inl hy
          · rw [List.mem_singleton] at hy
            rw [hy, hq]
            exact Or.inr (List.mem_cons_self _ _)
        · rw [hq]
          exact Or.inr (List.mem_cons_of_mem _ hy)
      ordered := hs.ordered }

theorem notify_decr_some (s : Sched) (d : TaskID) (w : WaitingTaskBatchData)
    (hw : s.sys.waiting_list d = some w) (h1 : w.num_deps ≠ 1) :
    s.notify d =
      { s with
        sys := { s.sys with
                 waiting_list := Function.update s.sys.waiting_list d
                   (some { w with num_deps := w.num_deps - 1 }) } } := by
  have hc : ¬ ((s.sys.waiting_list d).getD WaitingTaskBatchData.zero).num_deps - 1 = 0 := by
    rw [hw]
    simp only [Option.getD_some]
    omega
  rw [notify_decr s d hc, hw]
  rfl

theorem singleLoop_start (s : Sched) (hs : Single s) (a0 : TaskID)
    (h0 : s.sys.is_task_done a0 = false) :
    SingleLoop s a0 (s.sys.tasks_depending_on a0) :=
  { not_done := h0
    counter := by
      intro t w hw
      obtain ⟨hpos, hc⟩ := hs.counter t w hw
      refine ⟨hpos, fun b hb hbt => ?_⟩
      have hne : s.sys.waiting_list t ≠ none := by
        rw [hw]
        exact Option.some_ne_none w
      rw [hc b hb hbt, (hs.edges a0 h0 t).2 b hb hbt hne]
    absent := fun t hn => (hs.edges a0 h0 t).1 hn
    edges := fun a _ ha d => hs.edges a ha d
    pending := hs.pending
    ordered := fun b hb hbr a ha => Or.inr (hs.ordered b hb hbr a ha) }

theorem singleLoop_step (s : Sched) (a0 d : TaskID) (rest : List TaskID) (hinv : Inv s)
    (h2 : Inv2 s) (hl : SingleLoop s a0 (d :: rest)) : SingleLoop (s.notify d) a0 rest := by
  have hcd : (d :: rest).count d = rest.count d + 1 := List.count_cons_self d rest
  have hct : ∀ t, t ≠ d → (d :: rest).count t = rest.count t := by
    intro t ht
    exact List.count_cons_of_ne ht rest
  cases hw : s.sys.waiting_list d with
  | none =>
    have := hl.absent d hw
    omega
  | some w =>
    obtain ⟨hpos, hc⟩ := hl.counter d w hw
    obtain ⟨hid, hnr, b0, hb0, hb0id, hb0r, hb0n⟩ := (hinv.waiting d w hw).2 hpos
    have heq := hc b0 hb0 hb0id
    rw [hcd] at heq
    have hle := count_le_pendingCount s.sys.is_task_done a0 hl.not_done b0.deps
    have hwne : s.sys.waiting_list d ≠ none := by
      rw [hw]
      exact Option.some_ne_none w
    by_cases h1 : w.num_deps = 1
    · have hrc : rest.count d = 0 := by omega
      have hpc : pendingCount s.sys.is_task_done b0.deps = b0.deps.count a0 := by omega
      have hdeps := pendingCount_eq_count s.sys.is_task_done a0 hl.not_done b0.deps hpc
      rw [notify_promote s d w hw h1]
      exact
        { not_done := hl.not_done
          counter := by
            intro t w1 hw1
            have hw2 : Function.update s.sys.waiting_list d none t = some w1 := hw1
            have ht : t ≠ d := by
              intro e
              rw [e, Function.update_same] at hw2
              exact Option.noConfusion hw2
            rw [Function.update_noteq ht] at hw2
            obtain ⟨hp1, hc1⟩ := hl.counter t w1 hw2
            refine ⟨hp1, fun b hb hbt => ?_⟩
            have := hc1 b hb hbt
            rw [hct t ht] at this
            exact this
          absent := by
            intro t hn
            have hn2 : Function.update s.sys.waiting_list d none t = none := hn
            by_cases ht : t = d
            · rw [ht]
              exact hrc
            · rw [Function.update_noteq ht] at hn2
              have := hl.absent t hn2
              rw [hct t ht] at this
              exact this
          edges := by
            intro a hne ha d1
            obtain ⟨e1, e2⟩ := hl.edges a hne ha d1
            constructor
            · intro hn
              have hn2 : Function.update s.sys.waiting_list d none d1 = none := hn
              by_cases hd : d1 = d
              · have hcount := (hl.edges a hne ha d).2 b0 hb0 hb0id hwne
                have hmem : a ∉ b0.deps := by
                  intro hm
                  rcases hdeps a hm with e | e
                  · exact hne e
                  · have ha2 : s.sys.is_task_done a = false := ha
                    rw [ha2] at e
                    exact Bool.noConfusion e
                rw [hd]
                show (s.sys.tasks_depending_on a).count d = 0
                rw [hcount]
                exact List.count_eq_zero_of_not_mem hmem
              · rw [Function.update_noteq hd] at hn2
                exact e1 hn2
            · intro b hb hbd hne2
              have hne3 : Function.update s.sys.waiting_list d none d1 ≠ none := hne2
              have hd : d1 ≠ d := by
                intro e
                rw [e, Function.update_same] at hne3
                exact hne3 rfl
              rw [Function.update_noteq hd] at hne3
              exact e2 b hb hbd hne3
          pending := by
            intro x hx
            rcases hx with hx | hx
            · exact hl.pending x (Or.inl hx)
            · rcases List.mem_append.mp hx with hx | hx
              · exact hl.pending x (Or.inr hx)
              · obtain ⟨i, -, rfl⟩ := (mem_batchItems _ _ _ _).mp hx
                show s.sys.is_task_done w.id = false
                rw [hid]
                cases hdn : s.sys.is_task_done d with
                | false => rfl
                | true => exact absurd (h2.done_readied d hdn) hnr
          ordered := by
            intro b hb hbr a ha
            rcases List.mem_append.mp hbr with hm | hm
            · exact hl.ordered b hb hm a ha
            · rw [List.mem_singleton] at hm
              have hbb : b = b0 := hinv.id_inj hb hb0 (hm.trans hb0id.symm)
              rw [hbb] at ha
              exact hdeps a ha }
    · rw [notify_decr_some s d w hw h1]
      exact
        { not_done := hl.not_done
          counter := by
            intro t w1 hw1
            have hw2 : Function.update s.sys.waiting_list d
                (some { w with num_deps := w.num_deps - 1 }) t = some w1 := hw1
            by_cases ht : t = d
            · rw [ht, Function.update_same] at hw2
              have hw3 := Option.some.inj hw2
              subst hw3
              refine ⟨?_, fun b hb hbt => ?_⟩
              · show 0 < w.num_deps - 1
                omega
              · have := hc b hb (hbt.trans ht)
                rw [hcd] at this
                rw [ht]
                show w.num_deps - 1 + (b.deps.count a0 : Int)
                  = (pendingCount s.sys.is_task_done b.deps : Int) + (rest.count d : Int)
                omega
            · rw [Function.update_noteq ht] at hw2
              obtain ⟨hp1, hc1⟩ := hl.counter t w1 hw2
              refine ⟨hp1, fun b hb hbt => ?_⟩
              have := hc1 b hb hbt
              rw [hct t ht] at this
              exact this
          absent := by
            intro t hn
            have hn2 : Function.update s.sys.waiting_list d
                (some { w with num_deps := w.num_deps - 1 }) t = none := hn
            have ht : t ≠ d := by
              intro e
              rw [e, Function.update_same] at hn2
              exact Option.noConfusion hn2
            rw [Function.update_noteq ht] at hn2
            have := hl.absent t hn2
            rw [hct t ht] at this
            exact this
          edges := by
            intro a hne ha d1
            obtain ⟨e1, e2⟩ := hl.edges a hne ha d1
            constructor
            · intro hn
              have hn2 : Function.update s.sys.waiting_list d
                  (some { w with num_deps := w.num_deps - 1 }) d1 = none := hn
              have hd : d1 ≠ d := by
                intro e
                rw [e, Function.update_same] at hn2
                exact Option.noConfusion hn2
              rw [Function.update_noteq hd] at hn2
              exact e1 hn2
            · intro b hb hbd _
              by_cases hd : d1 = d
              · exact e2 b hb hbd (hd ▸ hwne)
              · have hne3 : s.sys.waiting_list d1 ≠ none := by
                  have hne2 : Function.update s.sys.waiting_list d
                      (some { w with num_deps := w.num_deps - 1 }) d1 ≠ none := by assumption
                  rw [Function.update_noteq hd] at hne2
                  exact hne2
                exact e2 b hb hbd hne3
          pending := hl.pending
          ordered := hl.ordered }

theorem singleLoop_foldl (a0 : TaskID) (ts : List TaskID) (s : Sched) (hinv : Inv s)
    (h2 : Inv2 s) (hl : SingleLoop s a0 ts) : SingleLoop (ts.foldl Sched.notify s) a0 [] := by
  induction ts generalizing s with
  | nil => exact hl
  | cons d rest ih =>
    exact ih _ (inv_notify s d hinv) (inv2_notify s d hinv h2) (singleLoop_step s a0 d rest hinv h2 hl)

/-- When no batch has more than one item, two different pushed items belong to
different batches. -/
theorem single_ids_distinct (s : Sched) (hinv : Inv s)
    (hG : ∀ b ∈ s.submitted, b.num_total_tasks ≤ 1) (x y : ReadyTaskData)
    (hx : x ∈ s.pushed) (hy : y ∈ s.pushed) (hne : x ≠ y) : x.id ≠ y.id := by
  intro hid
  have hidx : ∀ z ∈ s.pushed, z.index = 0 := by
    intro z hz
    obtain ⟨-, h0, h1, b, hb, -, -, hbn⟩ := hinv.pushed_sub z hz
    have := hG b hb
    omega
  have hkey : x.key = y.key := by
    unfold ReadyTaskData.key
    rw [hid, hidx x hx, hidx y hy]
  exact hne (List.inj_on_of_nodup_map hinv.pushed_nodup hx hy hkey)

theorem single_finish (s s1 : Sched) (item : ReadyTaskData) (hinv : Inv s) (h2 : Inv2 s)
    (hs : Single s) (hG : ∀ b ∈ s.submitted, b.num_total_tasks ≤ 1)
    (h : s.finishStep item = some s1) : Single s1 := by
  obtain ⟨hm, sF, hsF, hs1, e_fl, e_sub, e_pop, -, e_done, -, -⟩ :=
    finish_decompose s s1 item h
  have h0 : s.sys.is_task_done item.id = false := hs.pending item (Or.inl hm)
  have hF : Inv sF := hsF ▸ inv_foldl_notify _ s hinv
  have hL : SingleLoop sF item.id [] :=
    hsF ▸ singleLoop_foldl item.id _ s hinv h2 (singleLoop_start s hs item.id h0)
  have hGF : ∀ b ∈ sF.submitted, b.num_total_tasks ≤ 1 := by
    rw [e_sub]
    exact hG
  have hpn : sF.pushed.Nodup := List.Nodup.of_map _ hF.pushed_nodup
  have hpq : (sF.popped ++ sF.sys.ready_queue).Nodup := hF.queue ▸ hpn
  have hitem : item ∈ sF.popped := by
    rw [e_pop]
    exact hinv.flight item hm
  have hitemp : item ∈ sF.pushed := by
    rw [hF.queue]
    exact List.mem_append_left _ hitem
  have hfn : s.in_flight.Nodup := by
    have hpop : sF.popped.Nodup := hpq.of_append_left
    rw [e_pop] at hpop
    exact hpop.sublist h2.flight_sub
  rw [hs1]
  exact
    { counter := by
        intro t w hw
        obtain ⟨hpos, hc⟩ := hL.counter t w hw
        refine ⟨hpos, fun b hb hbt => ?_⟩
        have h3 := hc b hb hbt
        rw [e_done] at h3
        have hu := pendingCount_update s.sys.is_task_done item.id h0 b.deps
        show w.num_deps
          = (pendingCount (Function.update s.sys.is_task_done item.id true) b.deps : Int)
        simp only [List.count_nil] at h3
        omega
      edges := by
        intro a ha d
        have ha2 : Function.update s.sys.is_task_done item.id true a = false := ha
        have hne : a ≠ item.id := by
          intro e
          rw [e, Function.update_same] at ha2
          exact Bool.noConfusion ha2
        rw [Function.update_noteq hne] at ha2
        exact hL.edges a hne (e_done ▸ ha2) d
      pending := by
        intro y hy
        have hy2 : y ∈ s.in_flight.erase item ∨ y ∈ sF.sys.ready_queue := hy
        show Function.update s.sys.is_task_done item.id true y.id = false
        have hfacts : y ≠ item ∧ y ∈ sF.pushed ∧ (y ∈ sF.in_flight ∨ y ∈ sF.sys.ready_queue) := by
          rcases hy2 with hy2 | hy2
          · obtain ⟨hne, hin⟩ := (List.Nodup.mem_erase_iff hfn).mp hy2
            refine ⟨hne, ?_, Or.inl (e_fl ▸ hin)⟩
            rw [hF.queue, e_pop]
            exact List.mem_append_left _ (hinv.flight y hin)
          · refine ⟨?_, ?_, Or.inr hy2⟩
            · intro e
              exact (List.nodup_append.mp hpq).2.2 hitem (e ▸ hy2)
            · rw [hF.queue]
              exact List.mem_append_right _ hy2
        obtain ⟨hne, hyp, hpend⟩ := hfacts
        have hid := single_ids_distinct sF hF hGF y item hyp hitemp hne
        rw [Function.update_noteq hid]
        have := hL.pending y hpend
        rw [e_done] at this
        exact this
      ordered := by
        intro b hb hbr a ha
        show Function.update s.sys.is_task_done item.id true a = true
        by_cases hai : a = item.id
        · rw [hai, Function.update_same]
        · rw [Function.update_noteq hai]
          rcases hL.ordered b hb hbr a ha with e | e
          · exact absurd e hai
          · rw [e_done] at e
            exact e }

theorem step_submitted_mono (s s1 : Sched) (l : Label) (h : s.step l = some s1) :
    ∀ b ∈ s.submitted, b ∈ s1.submitted := by
  intro b hb
  cases l with
  | run r n deps =>
    have e : s.runStep r n deps = s1 := Option.some.inj h
    rw [← e]
    exact List.mem_append_left _ hb
  | pop =>
    obtain ⟨x, rest, -, hs1⟩ := popStep_eq s s1 h
    rw [hs1]
    exact hb
  | finish item =>
    obtain ⟨-, sF, -, hs1, -, e_sub, -⟩ := finish_decompose s s1 item h
    rw [hs1]
    show b ∈ sF.submitted
    rw [e_sub]
    exact hb

theorem single_reachable (s : Sched) (hr : Reachable s)
    (hG : ∀ b ∈ s.submitted, b.num_total_tasks ≤ 1) : Single s := by
  have key : ∀ s, Reachable s →
      (Inv2 s ∧ ((∀ b ∈ s.submitted, b.num_total_tasks ≤ 1) → Single s)) := by
    refine reachable_induction _ (fun nt => ⟨inv2_init nt, fun _ => single_init nt⟩) ?_
    intro s s1 l hinv hp hstep
    obtain ⟨h2, hsingle⟩ := hp
    have h21 : Inv2 s1 := by
      cases l with
      | run r n deps =>
        have e : s.runStep r n deps = s1 := Option.some.inj hstep
        rw [← e]
        exact inv2_run s r n deps hinv h2
      | pop => exact inv2_pop s s1 h2 hstep
      | finish item => exact inv2_finish s s1 item hinv h2 hstep
    refine ⟨h21, fun hG1 => ?_⟩
    have hG0 : ∀ b ∈ s.submitted, b.num_total_tasks ≤ 1 :=
      fun b hb => hG1 b (step_submitted_mono s s1 l hstep b hb)
    have hs := hsingle hG0
    cases l with
    | run r n deps =>
      have e : s.runStep r n deps = s1 := Option.some.inj hstep
      rw [← e]
      exact single_run s r n deps hinv hs
    | pop => exact single_pop s s1 hs hstep
    | finish item => exact single_finish s s1 item hinv h2 hs hG0 hstep
  exact (key s hr).2 hG

/-! ## Results -/

/-- C1 (dependency ordering), evaluated on the code: batch 1 is submitted with
two items and batch 2 with `deps = [1]`; after the first item of batch 1
finishes and the queue is drained, the item of batch 2 has been popped while
only one of the two items of batch 1 has finished (the other is still held by
a worker). -/
theorem dependent_popped_before_dependency_finished :
    ∃ s, exec (Sched.init 4) multiItemTrace = some s ∧
      s.submitted = [⟨1, 7, 2, []⟩, ⟨2, 8, 1, [1]⟩] ∧
      (⟨2, 8, 0, 1⟩ : ReadyTaskData) ∈ s.popped ∧
      s.finishedCount 1 = 1 ∧
      s.in_flight = [⟨1, 7, 1, 2⟩, ⟨2, 8, 0, 1⟩] :=
  ⟨_, rfl, by decide⟩

/-- C2 (completion flag), evaluated on the code: `markTaskFinished` sets
`is_task_done[finished_task.id]` in every call, whatever the number of items
of the batch that have finished; so a batch of two items is marked done as soon
as its first item has finished, while its second item is still in the ready
queue. -/
theorem done_flag_set_by_first_item :
    (∀ (sys : TaskSystem) (item : ReadyTaskData),
      (sys.markTaskFinished item).is_task_done item.id = true) ∧
    (∃ s, exec (Sched.init 4) firstItemTrace = some s ∧
      s.submitted = [⟨1, 7, 2, []⟩] ∧
      s.sys.is_task_done 1 = true ∧
      s.finishedCount 1 = 1 ∧
      s.sys.ready_queue = [⟨1, 7, 1, 2⟩]) :=
  ⟨fun sys item => by simp [TaskSystem.markTaskFinished], ⟨_, rfl, by decide⟩⟩

/-- C3 (barrier completeness), evaluated on the code: after an empty batch 1
and a one-item batch 2 with `deps = [1]` (an id already issued), the predicate
that `sync` waits for holds although batch 2 is in the waiting list with one
pending dependency and its item has never been pushed or popped.  Also with
every item count at least 1 the waiting list need not be empty when the
predicate holds: after a two-item batch 1 and a dependent batch 2 have run to
completion, the second finish of batch 1 has re-inserted key 2 into the
waiting list with `num_deps = -1`. -/
theorem sync_condition_with_waiting_batch :
    (∃ s, exec (Sched.init 4) zeroItemTrace = some s ∧
      s.sys.syncCondition = true ∧
      s.sys.waiting_list 2 = some ⟨2, 1, 8, 1⟩ ∧
      s.pushed = [] ∧ s.popped = [] ∧ s.finished = []) ∧
    (∃ s, exec (Sched.init 4) allDoneTrace = some s ∧
      s.sys.syncCondition = true ∧
      s.finished = [⟨1, 7, 0, 2⟩, ⟨1, 7, 1, 2⟩, ⟨2, 8, 0, 1⟩] ∧
      s.sys.waiting_list 2 = some ⟨0, -1, 0, 0⟩) :=
  ⟨⟨_, rfl, by decide⟩, ⟨_, rfl, by decide⟩⟩

/-- C4, the claim fails: on a fresh scheduler `run` with `deps = [5]`, an id
that was never issued, returns the fresh id 1 like any other call, stores the
batch in the waiting list with one pending dependency and records the edge
`5 → 1`. -/
theorem run_accepts_unknown_dependency :
    ((TaskSystem.init 4).run 7 1 [5]).2 = (TaskSystem.init 4).last_task_id + 1 ∧
    ((TaskSystem.init 4).run 7 1 [5]).1.waiting_list 1 = some ⟨1, 1, 7, 1⟩ ∧
    ((TaskSystem.init 4).run 7 1 [5]).1.tasks_depending_on 5 = [1] ∧
    ((TaskSystem.init 4).run 7 1 [5]).1.ready_queue = [] := by
  decide

/-- C6 (submission with no pending dependency): when every id in `deps` is
marked done (in particular when `deps` is empty), `run` returns
`last_task_id + 1`, appends exactly the items `(id, runnable, 0, n), ...,
(id, runnable, n - 1, n)` in index order to the ready queue, and leaves the
waiting list and the dependents lists unchanged. -/
theorem run_without_pending_dependency (s : TaskSystem) (r : Nat) (n : Int)
    (deps : List TaskID) (h : ∀ t ∈ deps, s.is_task_done t = true) :
    (s.run r n deps).2 = s.last_task_id + 1 ∧
    (s.run r n deps).1.ready_queue = s.ready_queue ++
      (List.range n.toNat).map (fun (i : Nat) =>
        ({ id := s.last_task_id + 1, runnable := r, index := (i : Int),
           num_total_tasks := n } : ReadyTaskData)) ∧
    (s.run r n deps).1.waiting_list = s.waiting_list ∧
    (s.run r n deps).1.tasks_depending_on = s.tasks_depending_on := by
  have h0 : (scanDeps s deps).2 = 0 := (scanDeps_snd_eq_zero_iff s deps).mpr h
  rw [run_direct s r n deps h0]
  refine ⟨rfl, rfl, rfl, ?_⟩
  exact scanDeps_fst_of_done s deps h

theorem run_without_pending_dependency_witness :
    (∀ t ∈ [1, 1], oneDoneSys.is_task_done t = true) ∧
    (oneDoneSys.run 9 3 [1, 1]).2 = 2 ∧
    (oneDoneSys.run 9 3 [1, 1]).1.ready_queue = [⟨2, 9, 0, 3⟩, ⟨2, 9, 1, 3⟩, ⟨2, 9, 2, 3⟩] :=
  ⟨by decide,
   (run_without_pending_dependency oneDoneSys 9 3 [1, 1] (by decide)).1,
   (run_without_pending_dependency oneDoneSys 9 3 [1, 1] (by decide)).2.1⟩

/-- C7 (submission with pending dependencies): when some entry of `deps` is not
marked done, `run` leaves the ready queue unchanged, stores the new batch under
its id in the waiting list with `num_deps` equal to the number of entries of
`deps` (with multiplicity) that are not done, leaves every other waiting entry
as it was, and appends the new id to the dependents list of each not-done id
once per occurrence in `deps` while the list of every done id (and of every id
not in `deps`) is unchanged. -/
theorem run_with_pending_dependency (s : TaskSystem) (r : Nat) (n : Int)
    (deps : List TaskID) (h : ∃ t ∈ deps, s.is_task_done t = false) :
    (s.run r n deps).2 = s.last_task_id + 1 ∧
    (s.run r n deps).1.ready_queue = s.ready_queue ∧
    (s.run r n deps).1.waiting_list (s.last_task_id + 1) =
      some { id := s.last_task_id + 1,
             num_deps := ((deps.filter (fun t => !(s.is_task_done t))).length : Int),
             runnable := r, num_total_tasks := n } ∧
    (∀ t, t ≠ s.last_task_id + 1 → (s.run r n deps).1.waiting_list t = s.waiting_list t) ∧
    (∀ t, (s.run r n deps).1.tasks_depending_on t = s.tasks_depending_on t ++
      (if s.is_task_done t = true then []
       else List.replicate (deps.count t) (s.last_task_id + 1))) :=
  run_pending_facts s r n deps h

theorem run_with_pending_dependency_witness :
    (∃ t ∈ [1, 3, 3], oneDoneSys.is_task_done t = false) ∧
    (oneDoneSys.run 9 2 [1, 3, 3]).1.waiting_list 2 = some ⟨2, 2, 9, 2⟩ ∧
    (oneDoneSys.run 9 2 [1, 3, 3]).1.tasks_depending_on 3 = [2, 2] ∧
    (oneDoneSys.run 9 2 [1, 3, 3]).1.tasks_depending_on 1 = [] :=
  ⟨by decide,
   (run_with_pending_dependency oneDoneSys 9 2 [1, 3, 3] (by decide)).2.2.1,
   (run_with_pending_dependency oneDoneSys 9 2 [1, 3, 3] (by decide)).2.2.2.2 3,
   (run_with_pending_dependency oneDoneSys 9 2 [1, 3, 3] (by decide)).2.2.2.2 1⟩

/-- C9 (single completion propagation), evaluated on the code: batch 3 depends
on the two-item batch 1 and on batch 2, one edge each.  The finish of the first
item of batch 1 lowers the counter of batch 3 from 2 to 1, and the finish of
the second item of batch 1 lowers it again, to 0: batch 3 is promoted and
enqueued while batch 2 has not been popped, let alone finished. -/
theorem propagation_fires_per_item :
    (∃ s, exec (Sched.init 4) diamondTraceA = some s ∧
      s.sys.tasks_depending_on 1 = [3] ∧ s.sys.tasks_depending_on 2 = [3] ∧
      s.sys.waiting_list 3 = some ⟨3, 1, 9, 1⟩) ∧
    (∃ s, exec (Sched.init 4) diamondTraceB = some s ∧
      s.sys.waiting_list 3 = none ∧ s.promoted = [3] ∧
      s.sys.ready_queue = [⟨2, 8, 0, 1⟩, ⟨3, 9, 0, 1⟩] ∧
      s.sys.is_task_done 2 = false ∧ s.finishedCount 2 = 0) :=
  ⟨⟨_, rfl, by decide⟩, ⟨_, rfl, by decide⟩⟩

/-- C10 (construction), evaluated on the code: for every positive
`num_threads`, `reserve` leaves the size of `threads` at 0, so the first
indexed access of the constructor, `threads[0]`, is outside the bounds of the
collection, and so is the first indexed access of the destructor on the
collection as `reserve` left it. -/
theorem constructor_index_out_of_range (num_threads : Int) (h : 0 < num_threads) :
    (ThreadVec.new.reserve num_threads.toNat).size = 0 ∧
    constructThreads num_threads = .error { index := 0, size := 0 } ∧
    destructThreads num_threads (ThreadVec.new.reserve num_threads.toNat)
      = .error { index := 0, size := 0 } := by
  obtain ⟨k, hk⟩ : ∃ k, num_threads.toNat = k + 1 :=
    Nat.exists_eq_succ_of_ne_zero (by omega)
  refine ⟨rfl, ?_, ?_⟩
  · unfold constructThreads
    rw [hk, List.range_succ_eq_map]
    rfl
  · unfold destructThreads
    rw [hk, List.range_succ_eq_map]
    rfl

theorem constructor_index_out_of_range_witness :
    (0 : Int) < 4 ∧ (ThreadVec.new.reserve 4).size = 0 ∧
    constructThreads 4 = .error { index := 0, size := 0 } :=
  ⟨by decide, (constructor_index_out_of_range 4 (by decide)).1,
   (constructor_index_out_of_range 4 (by decide)).2.1⟩

/-- C4, amended: in every reachable state, when `deps` contains an id `t` that
no earlier `run` returned (the id about to be issued and larger ids included),
`run` reports nothing: `t` is not marked done, `run` returns the fresh id
`last_task_id + 1` as for any other call, leaves the ready queue unchanged,
stores the new batch in the waiting list with `num_deps` equal to the number
of not-done entries of `deps` (at least 1), and appends the new id to the
dependents list of `t` once per occurrence of `t` in `deps`. -/
theorem run_records_unknown_dependency (s : Sched) (hr : Reachable s) (r : Nat) (n : Int)
    (deps : List TaskID) (t : TaskID) (ht : t ∈ deps)
    (hunk : t ∉ s.submitted.map (fun b => b.id)) :
    s.sys.is_task_done t = false ∧
    (s.sys.run r n deps).2 = s.sys.last_task_id + 1 ∧
    (s.sys.run r n deps).1.ready_queue = s.sys.ready_queue ∧
    0 < (deps.filter (fun d => !(s.sys.is_task_done d))).length ∧
    (s.sys.run r n deps).1.waiting_list (s.sys.last_task_id + 1) =
      some { id := s.sys.last_task_id + 1,
             num_deps := ((deps.filter (fun d => !(s.sys.is_task_done d))).length : Int),
             runnable := r, num_total_tasks := n } ∧
    0 < deps.count t ∧
    (s.sys.run r n deps).1.tasks_depending_on t =
      s.sys.tasks_depending_on t ++ List.replicate (deps.count t) (s.sys.last_task_id + 1) := by
  have hinv := inv_reachable s hr
  have hnd : s.sys.is_task_done t = false := by
    cases hd : s.sys.is_task_done t with
    | false => rfl
    | true =>
      obtain ⟨b, hb, hbid⟩ := hinv.done_sub t hd
      exact absurd (List.mem_map.mpr ⟨b, hb, hbid⟩) hunk
  obtain ⟨h1, h2, h3, -, h5⟩ := run_pending_facts s.sys r n deps ⟨t, ht, hnd⟩
  refine ⟨hnd, h1, h2, ?_, h3, List.count_pos_iff.mpr ht, ?_⟩
  · apply List.length_pos_of_mem (a := t)
    simp [List.mem_filter, ht, hnd]
  · rw [h5 t]
    simp [hnd]

theorem run_records_unknown_dependency_witness :
    Reachable mixedState ∧ (4 : TaskID) ∈ [1, 4, 7, 4] ∧
    (4 : TaskID) ∉ mixedState.submitted.map (fun b => b.id) ∧
    (mixedState.sys.run 5 2 [1, 4, 7, 4]).2 = 4 ∧
    (mixedState.sys.run 5 2 [1, 4, 7, 4]).1.tasks_depending_on 4 = [4, 4] :=
  ⟨⟨4, mixedTrace, rfl⟩, by decide, by decide,
   (run_records_unknown_dependency mixedState ⟨4, mixedTrace, rfl⟩ 5 2 [1, 4, 7, 4] 4
      (by decide) (by decide)).2.1,
   (run_records_unknown_dependency mixedState ⟨4, mixedTrace, rfl⟩ 5 2 [1, 4, 7, 4] 4
      (by decide) (by decide)).2.2.2.2.2.2⟩

/-- C5 (exactly-once enqueue): in every reachable state, over the whole history
of pushes onto the ready queue, no pair `(batch id, index)` was pushed twice;
every pushed item belongs to a submitted batch, carries its runnable and item
count, and has its index in `[0, item count)`; no batch was promoted out of the
waiting list twice; for every submitted batch that became ready (enqueued by
`run` or promoted by `markTaskFinished`) every index in `[0, item count)` was
pushed exactly once; and no pair was popped twice. -/
theorem enqueue_exactly_once (s : Sched) (hr : Reachable s) :
    (s.pushed.map ReadyTaskData.key).Nodup ∧
    (∀ x ∈ s.pushed, ∃ b ∈ s.submitted, b.id = x.id ∧ b.runnable = x.runnable ∧
      b.num_total_tasks = x.num_total_tasks ∧ 0 ≤ x.index ∧ x.index < b.num_total_tasks) ∧
    s.promoted.Nodup ∧
    (∀ b ∈ s.submitted, b.id ∈ s.readied → ∀ i : Int, 0 ≤ i → i < b.num_total_tasks →
      s.pushed.countP (fun x => decide (x.key = (b.id, i))) = 1) ∧
    (s.popped.map ReadyTaskData.key).Nodup := by
  have hinv := inv_reachable s hr
  refine ⟨hinv.pushed_nodup, ?_, hinv.promoted_sub.nodup hinv.readied_nodup, ?_, ?_⟩
  · intro x hx
    obtain ⟨-, h0, h1, b, hb, hbid, hbr, hbn⟩ := hinv.pushed_sub x hx
    exact ⟨b, hb, hbid, hbr, hbn, h0, hbn ▸ h1⟩
  · intro b hb hbr i hi0 hin
    have hmem := hinv.complete b hb hbr i.toNat (by omega)
    have hcast : ((i.toNat : Nat) : Int) = i := Int.toNat_of_nonneg hi0
    rw [hcast] at hmem
    exact countP_key_eq_one s.pushed hinv.pushed_nodup _ hmem
  · have hq := hinv.pushed_nodup
    rw [hinv.queue, List.map_append] at hq
    exact hq.of_append_left

theorem enqueue_exactly_once_witness :
    Reachable mixedState ∧ mixedState.promoted = [2] ∧
    (mixedState.pushed.map ReadyTaskData.key).Nodup ∧
    (mixedState.popped.map ReadyTaskData.key).Nodup :=
  ⟨⟨4, mixedTrace, rfl⟩, by decide,
   (enqueue_exactly_once mixedState ⟨4, mixedTrace, rfl⟩).1,
   (enqueue_exactly_once mixedState ⟨4, mixedTrace, rfl⟩).2.2.2.2⟩

/-- C8 (batch ids): after any trace from a freshly constructed scheduler that
contains `k` calls of `run`, with `k < 2^31 - 1`, the ids returned so far are
`1, 2, ..., k` in submission order, whatever the arguments of the calls and
whatever pops and finishes were interleaved; the next call returns `k + 1`,
which is representable as an `int`, is greater than every id returned before
and is returned for any `runnable`, `num_total_tasks` and `deps`. -/
theorem run_ids_sequential (num_threads : Int) (tr : List Label) (s : Sched)
    (h : exec (Sched.init num_threads) tr = some s) (hk : (runCount tr : Int) < INT_MAX)
    (r : Nat) (n : Int) (deps : List TaskID) :
    (s.sys.run r n deps).2 = (runCount tr : Int) + 1 ∧
    (s.sys.run r n deps).2 ≤ INT_MAX ∧
    s.submitted.map (fun b => b.id)
      = (List.range (runCount tr)).map (fun (i : Nat) => (i : Int) + 1) ∧
    (s.submitted.map (fun b => b.id)).Nodup ∧
    (∀ b ∈ s.submitted, b.id < (s.sys.run r n deps).2) := by
  have hinv := inv_exec tr _ s (inv_init num_threads) h
  have hlen : s.submitted.length = runCount tr := by
    have := exec_submitted_length tr _ s h
    simpa [Sched.init] using this
  have hret : (s.sys.run r n deps).2 = (runCount tr : Int) + 1 := by
    rw [run_snd, hinv.last_eq, hlen]
  have hids : s.submitted.map (fun b => b.id)
      = (List.range (runCount tr)).map (fun (i : Nat) => (i : Int) + 1) := by
    rw [hinv.ids, hlen]
  refine ⟨hret, ?_, hids, ?_, ?_⟩
  · rw [hret]
    unfold TaskID at *
    omega
  · rw [hids]
    refine List.Nodup.map ?_ (List.nodup_range _)
    intro i j hij
    have : (i : Int) + 1 = (j : Int) + 1 := hij
    omega
  · intro b hb
    have hb2 := (hinv.id_bounds hb).2
    rw [run_snd]
    unfold TaskID at *
    omega

theorem run_ids_sequential_witness :
    exec (Sched.init 4) mixedTrace = some mixedState ∧ (runCount mixedTrace : Int) < INT_MAX ∧
    (mixedState.sys.run 5 1 [2]).2 = 4 ∧
    mixedState.submitted.map (fun b => b.id) = [1, 2, 3] :=
  ⟨rfl, by decide,
   (run_ids_sequential 4 mixedTrace mixedState rfl (by decide) 5 1 [2]).1,
   (run_ids_sequential 4 mixedTrace mixedState rfl (by decide) 5 1 [2]).2.2.1⟩

/-- C11 (three-state invariant), evaluated on the code: after the first item
of a two-item batch has finished, the batch is marked done while its second
item is still in the ready queue; and after a two-item batch 1 and its
dependent batch 2 have run to completion, the waiting list holds an entry under
key 2 with `num_deps = -1` although batch 2 became ready and is marked done. -/
theorem done_batch_still_queued :
    (∃ s, exec (Sched.init 4) firstItemTrace = some s ∧
      s.sys.is_task_done 1 = true ∧
      (⟨1, 7, 1, 2⟩ : ReadyTaskData) ∈ s.sys.ready_queue) ∧
    (∃ s, exec (Sched.init 4) allDoneTrace = some s ∧
      s.sys.waiting_list 2 = some ⟨0, -1, 0, 0⟩ ∧
      s.sys.is_task_done 2 = true ∧ 2 ∈ s.readied) :=
  ⟨⟨_, rfl, by decide⟩, ⟨_, rfl, by decide⟩⟩

/-- C12 (propagation step), evaluated on the code.  (a) Batch 2 depends on the
two-item batch 1 and was promoted when the first item of batch 1 finished; when
`markTaskFinished` runs for the last item of batch 1 its dependents list is
still `[2]`, batch 2 has no waiting entry, and the call inserts one with
`num_deps = -1`.  (b) Batch 3 has `deps = [1, 2, 2]` and counter 1 when the
only item of batch 2 finishes; in that one call its counter reaches zero, its
two items are enqueued, and the second occurrence of 3 in the dependents list
of batch 2 puts key 3 back into the waiting list with `num_deps = -1`,
`runnable = nullptr` and no items. -/
theorem last_item_propagation_reinserts :
    (∃ s, exec (Sched.init 4) lastItemTraceA = some s ∧
      s.sys.tasks_depending_on 1 = [2] ∧ s.sys.waiting_list 2 = none ∧
      s.in_flight = [⟨1, 7, 1, 2⟩]) ∧
    (∃ s, exec (Sched.init 4) lastItemTraceB = some s ∧
      s.sys.waiting_list 2 = some ⟨0, -1, 0, 0⟩) ∧
    (∃ s, exec (Sched.init 4) reinsertTraceA = some s ∧
      s.sys.tasks_depending_on 2 = [3, 3] ∧ s.sys.waiting_list 3 = some ⟨3, 1, 9, 2⟩ ∧
      s.in_flight = [⟨2, 8, 0, 1⟩] ∧ s.sys.ready_queue = []) ∧
    (∃ s, exec (Sched.init 4) reinsertTraceB = some s ∧
      s.sys.ready_queue = [⟨3, 9, 0, 2⟩, ⟨3, 9, 1, 2⟩] ∧ s.promoted = [3] ∧
      s.sys.waiting_list 3 = some ⟨0, -1, 0, 0⟩) :=
  ⟨⟨_, rfl, by decide⟩, ⟨_, rfl, by decide⟩, ⟨_, rfl, by decide⟩, ⟨_, rfl, by decide⟩⟩

/-- C14 (worker iteration decision): for every state and every value of the
shutdown flag that the worker reads, an iteration with a non-empty ready queue
pops the front item and goes on to execute it; an iteration exits exactly when
the queue was empty and the flag read is set; with an empty queue and the flag
clear it waits, and the predicate it waits for holds exactly when the queue is
non-empty or `shutdown` is set; the state is left as it was unless an item was
popped. -/
theorem worker_iteration_decision (s : TaskSystem) (shutdown_loaded : Bool) :
    (∀ x rest, s.ready_queue = x :: rest →
      s.workerThread shutdown_loaded =
        (.execute x, { s with ready_queue := rest, active_tasks := s.active_tasks + 1 })) ∧
    ((s.workerThread shutdown_loaded).1 = .exit ↔
      (s.ready_queue = [] ∧ shutdown_loaded = true)) ∧
    ((s.workerThread shutdown_loaded).1 = .wait ↔
      (s.ready_queue = [] ∧ shutdown_loaded = false)) ∧
    (s.ready_queue = [] → (s.workerThread shutdown_loaded).2 = s) ∧
    (s.ready_queue ≠ [] → (s.workerThread shutdown_loaded).1 ≠ .exit) ∧
    (s.taskAvailable = true ↔ (s.ready_queue ≠ [] ∨ s.shutdown = true)) := by
  cases hq : s.ready_queue with
  | nil =>
    cases shutdown_loaded <;>
      simp [TaskSystem.workerThread, TaskSystem.popFront, TaskSystem.taskAvailable, hq]
  | cons x rest =>
    cases shutdown_loaded <;>
      simp [TaskSystem.workerThread, TaskSystem.popFront, TaskSystem.taskAvailable, hq]

/-- C16 (zero-item batches never complete), evaluated on the code: batch 1 has
no items, batch 2 has two, and batch 3 is submitted with `deps = [1, 2]`.  At
submission batch 3 is stored in the waiting list with `num_deps = 2`, one edge
from each dependency.  After both items of batch 2 have finished, no item of
batch 1 has been pushed and batch 1 is not marked done, yet batch 3 has been
promoted out of the waiting list and its item is in the ready queue: each of
the two finished items of batch 2 decremented its counter. -/
theorem dependent_of_empty_batch_promoted :
    (∃ s, exec (Sched.init 4) zeroDepSubmitted = some s ∧
      s.submitted = [⟨1, 7, 0, []⟩, ⟨2, 8, 2, []⟩, ⟨3, 9, 1, [1, 2]⟩] ∧
      s.sys.waiting_list 3 = some ⟨3, 2, 9, 1⟩ ∧
      s.sys.tasks_depending_on 1 = [3] ∧ s.sys.tasks_depending_on 2 = [3] ∧
      s.sys.ready_queue = [⟨2, 8, 0, 2⟩, ⟨2, 8, 1, 2⟩]) ∧
    (∃ s, exec (Sched.init 4) zeroDepTrace = some s ∧
      s.submitted = [⟨1, 7, 0, []⟩, ⟨2, 8, 2, []⟩, ⟨3, 9, 1, [1, 2]⟩] ∧
      s.pushed = [⟨2, 8, 0, 2⟩, ⟨2, 8, 1, 2⟩, ⟨3, 9, 0, 1⟩] ∧
      s.sys.is_task_done 1 = false ∧
      s.sys.waiting_list 3 = none ∧
      s.promoted = [3] ∧ s.sys.ready_queue = [⟨3, 9, 0, 1⟩]) :=
  ⟨⟨_, rfl, by decide⟩, ⟨_, rfl, by decide⟩⟩

/-- C13 (FIFO ready queue): the pop block removes exactly the front item and
leaves the rest of the queue in order.  In every reachable state the items ever
pushed are the items popped so far followed by the ready queue, and they are
the items of the batches in the order in which the batches became ready, each
batch contributing its items in index order `0, 1, ..., n - 1`.  So whenever an
item `y` has been popped, every pushed item that comes before `y` in ready
order (its batch became ready earlier, or it is an item of the same batch with
a smaller index) was popped before `y`; in particular all items of a batch that
became ready earlier were popped before `y`. -/
theorem ready_queue_fifo (s : Sched) (hr : Reachable s) :
    (∀ x rest, s.sys.ready_queue = x :: rest →
      s.sys.popFront = some (x, { s.sys with ready_queue := rest,
                                             active_tasks := s.sys.active_tasks + 1 })) ∧
    s.pushed = s.popped ++ s.sys.ready_queue ∧
    s.pushed = itemsOfAll s.submitted s.readied ∧
    (∀ b ∈ s.submitted,
      itemsOf s.submitted b.id = (List.range b.num_total_tasks.toNat).map (fun (i : Nat) =>
        ({ id := b.id, runnable := b.runnable, index := (i : Int),
           num_total_tasks := b.num_total_tasks } : ReadyTaskData))) ∧
    (∀ l1 y l2, s.popped = l1 ++ y :: l2 → ∀ x ∈ s.pushed, s.precedes x y → x ∈ l1) ∧
    (∀ l1 y l2, s.popped = l1 ++ y :: l2 → ∀ b ∈ s.submitted,
      s.readied.indexOf b.id < s.readied.indexOf y.id →
      ∀ i : Nat, (i : Int) < b.num_total_tasks →
        ({ id := b.id, runnable := b.runnable, index := (i : Int),
           num_total_tasks := b.num_total_tasks } : ReadyTaskData) ∈ l1) := by
  have hinv := inv_reachable s hr
  have h2 := inv2_reachable s hr
  refine ⟨?_, hinv.queue, h2.fifo, ?_, ?_, ?_⟩
  · intro x rest hq
    simp [TaskSystem.popFront, hq]
  · intro b hb
    exact hinv.itemsOf_mem hb
  · intro l1 y l2 hp x hx hxy
    exact popped_before s hinv h2 l1 l2 y hp x hx hxy
  · intro l1 y l2 hp b hb hlt i hi
    have hbr : b.id ∈ s.readied :=
      List.indexOf_lt_length.mp (lt_of_lt_of_le hlt (List.indexOf_le_length))
    exact popped_before s hinv h2 l1 l2 y hp _ (hinv.complete b hb hbr i hi) (Or.inl hlt)

theorem ready_queue_fifo_witness :
    Reachable mixedState ∧
    mixedState.popped = [⟨1, 7, 0, 2⟩] ++ ⟨1, 7, 1, 2⟩ :: [] ∧
    mixedState.pushed = [⟨1, 7, 0, 2⟩, ⟨1, 7, 1, 2⟩, ⟨2, 8, 0, 1⟩] ∧
    (∀ x ∈ mixedState.pushed, mixedState.precedes x ⟨1, 7, 1, 2⟩ → x ∈ [⟨1, 7, 0, 2⟩]) :=
  ⟨⟨4, mixedTrace, rfl⟩, by decide, by decide,
   (ready_queue_fifo mixedState ⟨4, mixedTrace, rfl⟩).2.2.2.2.1 [⟨1, 7, 0, 2⟩] ⟨1, 7, 1, 2⟩ []
     (by decide)⟩

/-- C17 (in-flight counter): in every reachable state the items popped are, up
to order, the items for which `markTaskFinished` has run together with the
items still held by workers, and `active_tasks` is the number of the latter,
that is the number of pops minus the number of finishes; it is never negative.
From such a state `run` leaves `active_tasks` unchanged, the pop block raises it
by one and `markTaskFinished` lowers it by one. -/
theorem active_tasks_counts_in_flight (s : Sched) (hr : Reachable s) :
    s.popped.Perm (s.finished ++ s.in_flight) ∧
    s.sys.active_tasks = (s.in_flight.length : Int) ∧
    s.sys.active_tasks = (s.popped.length : Int) - (s.finished.length : Int) ∧
    0 ≤ s.sys.active_tasks ∧
    (∀ r n deps, (s.sys.run r n deps).1.active_tasks = s.sys.active_tasks) ∧
    (∀ x s1, s.sys.popFront = some (x, s1) → s1.active_tasks = s.sys.active_tasks + 1) ∧
    (∀ item, (s.sys.markTaskFinished item).active_tasks = s.sys.active_tasks - 1) := by
  have h2 := inv2_reachable s hr
  refine ⟨h2.perm, h2.active, ?_, ?_, ?_, ?_, ?_⟩
  · rw [h2.active]
    have := h2.lens
    omega
  · rw [h2.active]
    exact Int.ofNat_nonneg _
  · intro r n deps
    exact run_active s.sys r n deps
  · intro x s1 hpop
    unfold TaskSystem.popFront at hpop
    cases hq : s.sys.ready_queue with
    | nil =>
      rw [hq] at hpop
      exact Option.noConfusion hpop
    | cons y rest =>
      rw [hq] at hpop
      have e := (Prod.mk.inj (Option.some.inj hpop)).2
      rw [← e]
  · intro item
    exact markTaskFinished_active s.sys item

theorem active_tasks_counts_in_flight_witness :
    Reachable mixedState ∧ mixedState.in_flight = [⟨1, 7, 1, 2⟩] ∧
    mixedState.sys.active_tasks = 1 ∧
    mixedState.sys.active_tasks = (mixedState.in_flight.length : Int) :=
  ⟨⟨4, mixedTrace, rfl⟩, by decide, by decide,
   (active_tasks_counts_in_flight mixedState ⟨4, mixedTrace, rfl⟩).2.1⟩

/-- C15 (single-item batches are ordered correctly): in every reachable state
in which every submitted batch has exactly one item, (1) if the item of a batch
`B` has been pushed onto the ready queue, then every id in the `deps` of `B` is
the id of a submitted batch `A` whose item has finished; (2) the same holds if
the item of `B` has been popped; (3) every entry of the waiting list belongs to
the submitted batch with its key and its `num_deps` is positive and equal to the
number of entries of that batch's `deps`, with multiplicity, that are not
marked done; (4) an id is marked done exactly when an item with that id has
finished.  The dependency ids need not have been issued before the call. -/
theorem single_item_batches_ordered (s : Sched) (hr : Reachable s)
    (h1 : ∀ b ∈ s.submitted, b.num_total_tasks = 1) :
    (∀ B ∈ s.submitted, (∃ x ∈ s.pushed, x.id = B.id) → ∀ a ∈ B.deps,
      ∃ A ∈ s.submitted, A.id = a ∧
        ({ id := a, runnable := A.runnable, index := 0, num_total_tasks := 1 } : ReadyTaskData)
          ∈ s.finished) ∧
    (∀ B ∈ s.submitted, (∃ x ∈ s.popped, x.id = B.id) → ∀ a ∈ B.deps,
      ∃ y ∈ s.finished, y.id = a) ∧
    (∀ t w, s.sys.waiting_list t = some w → 0 < w.num_deps ∧
      ∃ b ∈ s.submitted, b.id = t ∧ w.id = t ∧
        w.num_deps = ((b.deps.filter (fun d => !(s.sys.is_task_done d))).length : Int)) ∧
    (∀ t, s.sys.is_task_done t = true ↔ ∃ y ∈ s.finished, y.id = t) := by
  have hinv := inv_reachable s hr
  have h2 := inv2_reachable s hr
  have hs := single_reachable s hr (fun b hb => le_of_eq (h1 b hb))
  have hfin : ∀ B ∈ s.submitted, B.id ∈ s.readied → ∀ a ∈ B.deps,
      ∃ A ∈ s.submitted, A.id = a ∧
        ({ id := a, runnable := A.runnable, index := 0, num_total_tasks := 1 } : ReadyTaskData)
          ∈ s.finished := by
    intro B hB hBr a ha
    obtain ⟨y, hy, hya⟩ := (h2.done_finished a).mp (hs.ordered B hB hBr a ha)
    have hyp : y ∈ s.pushed := by
      rw [hinv.queue]
      exact List.mem_append_left _ (h2.perm.symm.subset (List.mem_append_left _ hy))
    obtain ⟨-, hi0, hi1, A, hA, hAid, hAr, hAn⟩ := hinv.pushed_sub y hyp
    have hn := h1 A hA
    refine ⟨A, hA, hAid.trans hya, ?_⟩
    have hyeq : y = { id := a, runnable := A.runnable, index := 0, num_total_tasks := 1 } := by
      cases y with
      | mk yid yr yi yn =>
        simp only at hya hAr hAn hi0 hi1
        have hyn : yn = 1 := by omega
        have hyi : yi = 0 := by omega
        rw [hya, hAr, hyn, hyi]
    rw [← hyeq]
    exact hy
  refine ⟨?_, ?_, ?_, h2.done_finished⟩
  · rintro B hB ⟨x, hx, hxid⟩ a ha
    exact hfin B hB (hxid ▸ (hinv.pushed_sub x hx).1) a ha
  · rintro B hB ⟨x, hx, hxid⟩ a ha
    have hxp : x ∈ s.pushed := by
      rw [hinv.queue]
      exact List.mem_append_left _ hx
    obtain ⟨A, -, hAid, hA⟩ := hfin B hB (hxid ▸ (hinv.pushed_sub x hxp).1) a ha
    exact ⟨_, hA, rfl⟩
  · intro t w hw
    obtain ⟨hpos, hc⟩ := hs.counter t w hw
    obtain ⟨hid, -, b, hb, hbid, -⟩ := (hinv.waiting t w hw).2 hpos
    exact ⟨hpos, b, hb, hbid, hid, hc b hb hbid⟩

theorem single_item_batches_ordered_witness :
    Reachable singleState ∧ (∀ b ∈ singleState.submitted, b.num_total_tasks = 1) ∧
    (⟨3, 9, 0, 1⟩ : ReadyTaskData) ∈ singleState.popped ∧
    (∀ B ∈ singleState.submitted, (∃ x ∈ singleState.popped, x.id = B.id) → ∀ a ∈ B.deps,
      ∃ y ∈ singleState.finished, y.id = a) :=
  ⟨⟨4, singleTrace, rfl⟩, by decide, by decide,
   (single_item_batches_ordered singleState ⟨4, singleTrace, rfl⟩ (by decide)).2.1⟩

/-- Facts about empty batches that hold on the code: in every reachable state,
for every submitted batch `b` with `num_total_tasks = 0`, no item with the id
of `b` was ever pushed onto the ready queue and `is_task_done` is false for its id; a call of `run` whose
`deps` contain that id leaves the ready queue unchanged and stores the new
batch in the waiting list with a positive `num_deps`; and when no submitted
batch has more than one item, no batch with that id in its `deps` has become
ready, been promoted, or had an item pushed. -/
theorem empty_batch_never_done (s : Sched) (hr : Reachable s) (b : Submission)
    (hb : b ∈ s.submitted) (h0 : b.num_total_tasks = 0) :
    (∀ x ∈ s.pushed, x.id ≠ b.id) ∧
    s.sys.is_task_done b.id = false ∧
    (∀ (r : Nat) (n : Int) (deps : List TaskID), b.id ∈ deps →
      (s.sys.run r n deps).1.ready_queue = s.sys.ready_queue ∧
      0 < (deps.filter (fun d => !(s.sys.is_task_done d))).length ∧
      (s.sys.run r n deps).1.waiting_list (s.sys.last_task_id + 1) =
        some { id := s.sys.last_task_id + 1,
               num_deps := ((deps.filter (fun d => !(s.sys.is_task_done d))).length : Int),
               runnable := r, num_total_tasks := n }) ∧
    ((∀ c ∈ s.submitted, c.num_total_tasks ≤ 1) → ∀ B ∈ s.submitted, b.id ∈ B.deps →
      B.id ∉ s.readied ∧ B.id ∉ s.promoted ∧ ∀ x ∈ s.pushed, x.id ≠ B.id) := by
  have hinv := inv_reachable s hr
  have h2 := inv2_reachable s hr
  have hpush : ∀ x ∈ s.pushed, x.id ≠ b.id := by
    intro x hx hxid
    obtain ⟨-, hi0, hi1, c, hc, hcid, -, hcn⟩ := hinv.pushed_sub x hx
    have hcb : c = b := hinv.id_inj hc hb (hcid.trans hxid)
    rw [hcb, h0] at hcn
    omega
  have hnd : s.sys.is_task_done b.id = false := by
    cases hd : s.sys.is_task_done b.id with
    | false => rfl
    | true =>
      obtain ⟨y, hy, hyid⟩ := (h2.done_finished b.id).mp hd
      have hyp : y ∈ s.pushed := by
        rw [hinv.queue]
        exact List.mem_append_left _ (h2.perm.symm.subset (List.mem_append_left _ hy))
      exact absurd hyid (hpush y hyp)
  refine ⟨hpush, hnd, ?_, ?_⟩
  · intro r n deps hmem
    obtain ⟨-, hq, hw, -, -⟩ := run_pending_facts s.sys r n deps ⟨b.id, hmem, hnd⟩
    refine ⟨hq, ?_, hw⟩
    apply List.length_pos_of_mem (a := b.id)
    simp [List.mem_filter, hmem, hnd]
  · intro hG B hB hdep
    have hs := single_reachable s hr hG
    have hnr : B.id ∉ s.readied := by
      intro hBr
      have := hs.ordered B hB hBr b.id hdep
      rw [hnd] at this
      exact Bool.noConfusion this
    refine ⟨hnr, fun hp => hnr (hinv.promoted_sub.subset hp), ?_⟩
    intro x hx hxid
    exact hnr (hxid ▸ (hinv.pushed_sub x hx).1)

theorem empty_batch_never_done_witness :
    Reachable zeroState ∧ (⟨1, 7, 0, []⟩ : Submission) ∈ zeroState.submitted ∧
    (⟨2, 8, 1, [1]⟩ : Submission) ∈ zeroState.submitted ∧
    zeroState.sys.is_task_done 1 = false ∧
    ((∀ c ∈ zeroState.submitted, c.num_total_tasks ≤ 1) → ∀ B ∈ zeroState.submitted,
      (1 : TaskID) ∈ B.deps →
        B.id ∉ zeroState.readied ∧ B.id ∉ zeroState.promoted ∧
          ∀ x ∈ zeroState.pushed, x.id ≠ B.id) :=
  ⟨⟨4, zeroItemTrace, rfl⟩, by decide, by decide,
   (empty_batch_never_done zeroState ⟨4, zeroItemTrace, rfl⟩ ⟨1, 7, 0, []⟩ (by decide) rfl).2.1,
   (empty_batch_never_done zeroState ⟨4, zeroItemTrace, rfl⟩ ⟨1, 7, 0, []⟩ (by decide)
      rfl).2.2.2⟩

end BatchRunner
